import Mathlib

/-!
Verification development for the diff parsing, categorization, filtering and
statistics engine of the helm-chart-diff-viewer repository
(`src/components/DiffDisplay.tsx`).

The TypeScript source operates on JavaScript strings; here a string is a
Lean `String` and every primitive the source uses (`trim`, `toLowerCase`,
`includes`, `startsWith`, `split`, `join`, regular-expression matching
against the three concrete patterns appearing in the source) is modelled
explicitly on the underlying character list.  Multi-line text is split into
lines with the model of `String.prototype.split('\n')` and re-joined with
the model of `Array.prototype.join('\n')`, exactly where the source does.
-/

set_option maxRecDepth 4000

namespace HelmDiff

/-! ## JavaScript string primitives -/

/-- ASCII whitespace as matched by the source's uses of `trim` and `\s`
(all text reaching these code paths is ASCII). -/
def jsWS (c : Char) : Bool :=
  c = ' ' || c = '\t' || c = '\n' || c = '\r' || c = '\x0b' || c = '\x0c'

/-- Characters of `String.prototype.trim()`. -/
def trimChars (cs : List Char) : List Char :=
  ((cs.dropWhile jsWS).reverse.dropWhile jsWS).reverse

/-- `String.prototype.trim()`. -/
def jsTrim (s : String) : String := ⟨trimChars s.data⟩

/-- `String.prototype.toLowerCase()` (ASCII). -/
def lowerStr (s : String) : String := ⟨s.data.map Char.toLower⟩

/-- List-of-characters prefix test. -/
def isPrefixC : List Char → List Char → Bool
  | [], _ => true
  | _ :: _, [] => false
  | a :: as, b :: bs => a = b && isPrefixC as bs

/-- `String.prototype.includes` on character lists. -/
def containsC : List Char → List Char → Bool
  | [], sub => sub.isEmpty
  | c :: t, sub => isPrefixC sub (c :: t) || containsC t sub

/-- `String.prototype.includes`. -/
def containsStr (s sub : String) : Bool := containsC s.data sub.data

/-- `String.prototype.startsWith`. -/
def startsWithStr (s p : String) : Bool := isPrefixC p.data s.data

/-- `String.prototype.split(sep)` for a one-character separator, on
character lists.  Always returns a non-empty list of separator-free
pieces. -/
def splitOnC (sep : Char) : List Char → List (List Char)
  | [] => [[]]
  | c :: rest =>
      if c = sep then [] :: splitOnC sep rest
      else
        match splitOnC sep rest with
        | h :: t => (c :: h) :: t
        | [] => [[c]]

/-- `String.prototype.split(sep)` for a one-character separator. -/
def splitStr (s : String) (sep : Char) : List String :=
  (splitOnC sep s.data).map (fun cs => ⟨cs⟩)

/-- `diff.split('\n')`. -/
def linesOf (s : String) : List String := splitStr s '\n'

/-- `Array.prototype.join(sep)` on character lists. -/
def joinC (sep : Char) : List (List Char) → List Char
  | [] => []
  | [l] => l
  | l :: ls => l ++ sep :: joinC sep ls

/-- `lines.join('\n')`. -/
def unlines (ls : List String) : String := ⟨joinC '\n' (ls.map String.data)⟩

/-! ## The source's regular expressions

The source uses three patterns on lines:
* `/\(([^)]+)\)/` (the dyff resource-identifier pattern, with capture),
* `/\([^)]+\/[^)]+\/[^)]+\)/` (a 3-part parenthesized identifier, as a test),
* the field patterns of the YAML fallback (`/^[+-]?\s*kind:\s*(.+)$/i`, etc.).

All are modelled as executable functions on character lists, following the
left-to-right scanning of the JavaScript regex engine. -/

/-- First match of `/\(([^)]+)\)/`: scanning left to right, at each `(` the
candidate capture is everything up to the next `)`; the match succeeds iff
that interior is non-empty and a closing `)` exists. -/
def firstParenC : List Char → Option (List Char)
  | [] => none
  | c :: rest =>
      if c = '(' then
        let interior := rest.takeWhile (fun d => d ≠ ')')
        if interior.length ≠ 0 ∧ interior.length < rest.length then some interior
        else firstParenC rest
      else firstParenC rest

/-- `line.match(/\(([^)]+)\)/)`, returning the capture group. -/
def firstParenMatch (s : String) : Option String :=
  (firstParenC s.data).map (fun cs => ⟨cs⟩)

/-- Can `interior` (a `)`-free character list) be decomposed as
`[^)]+ "/" [^)]+ "/" [^)]+`?  Equivalently: there are slash positions
`p < q` with one character before `p`, one strictly between, and one
after `q`. -/
def slashSplitOK (interior : List Char) : Bool :=
  (List.range interior.length).any (fun p =>
    interior.getD p ' ' = '/' && 1 ≤ p &&
    (List.range interior.length).any (fun q =>
      interior.getD q ' ' = '/' && p + 2 ≤ q && q + 2 ≤ interior.length))

/-- Test of `/\([^)]+\/[^)]+\/[^)]+\)/` on character lists. -/
def paren3C : List Char → Bool
  | [] => false
  | c :: rest =>
      if c = '(' then
        let interior := rest.takeWhile (fun d => d ≠ ')')
        (decide (interior.length < rest.length) && slashSplitOK interior) || paren3C rest
      else paren3C rest

/-- `line.match(/\([^)]+\/[^)]+\/[^)]+\)/) !== null`. -/
def paren3 (s : String) : Bool := paren3C s.data

/-! ## Categorizer (`categorizeChange` and its lookup tables) -/

/-- The `RESOURCE_KIND_CATEGORIES` table. -/
def RESOURCE_KIND_CATEGORIES : List (String × String) :=
  [("Deployment", "Workloads"), ("StatefulSet", "Workloads"), ("DaemonSet", "Workloads"),
   ("ReplicaSet", "Workloads"), ("Job", "Workloads"), ("CronJob", "Workloads"),
   ("Pod", "Workloads"),
   ("Service", "Services"), ("Endpoints", "Services"), ("EndpointSlice", "Services"),
   ("Ingress", "Networking"), ("IngressClass", "Networking"), ("NetworkPolicy", "Networking"),
   ("PersistentVolume", "Storage"), ("PersistentVolumeClaim", "Storage"),
   ("StorageClass", "Storage"), ("VolumeAttachment", "Storage"),
   ("ConfigMap", "Configuration"), ("Secret", "Configuration"),
   ("ServiceAccount", "RBAC"), ("Role", "RBAC"), ("RoleBinding", "RBAC"),
   ("ClusterRole", "RBAC"), ("ClusterRoleBinding", "RBAC"),
   ("PodDisruptionBudget", "Policy"), ("PodSecurityPolicy", "Policy"),
   ("LimitRange", "Policy"), ("ResourceQuota", "Policy"), ("PriorityClass", "Policy"),
   ("HorizontalPodAutoscaler", "Autoscaling"), ("VerticalPodAutoscaler", "Autoscaling")]

/-- The `STANDARD_KUBERNETES_KINDS` set. -/
def STANDARD_KUBERNETES_KINDS : List String :=
  ["Deployment", "StatefulSet", "DaemonSet", "ReplicaSet", "Job", "CronJob", "Pod",
   "Service", "Endpoints", "EndpointSlice",
   "Ingress", "IngressClass", "NetworkPolicy",
   "PersistentVolume", "PersistentVolumeClaim", "StorageClass", "VolumeAttachment",
   "ConfigMap", "Secret",
   "ServiceAccount", "Role", "RoleBinding", "ClusterRole", "ClusterRoleBinding",
   "PodDisruptionBudget", "PodSecurityPolicy", "LimitRange", "ResourceQuota", "PriorityClass",
   "HorizontalPodAutoscaler", "VerticalPodAutoscaler",
   "Namespace", "Node", "Event", "ComponentStatus", "APIService",
   "CustomResourceDefinition", "MutatingWebhookConfiguration", "ValidatingWebhookConfiguration",
   "CertificateSigningRequest", "Lease", "CSIDriver", "CSINode", "CSIStorageCapacity",
   "FlowSchema", "PriorityLevelConfiguration", "RuntimeClass", "PodTemplate"]

/-- `categorizeChange(path, kind)`: direct kind lookup, then CRD detection,
then lower-cased-path substring cues, then `kind || 'Other'`. -/
def categorizeChange (path kind : String) : String :=
  match (RESOURCE_KIND_CATEGORIES.lookup kind) with
  | some cat => cat
  | none =>
    if kind ≠ "" ∧ ¬ STANDARD_KUBERNETES_KINDS.contains kind then "Custom Resources"
    else
      let lp := lowerStr path
      if containsStr lp "metadata.labels" || containsStr lp "metadata.annotations" then
        "Metadata & Tags"
      else if containsStr lp ".status." then "Status"
      else if containsStr lp ".spec." then
        if containsStr lp ".spec.containers" || containsStr lp ".spec.image" ||
            containsStr lp ".spec.template" then "Container & Image"
        else if containsStr lp ".spec.replicas" || containsStr lp ".spec.scale" then "Scaling"
        else if containsStr lp ".spec.service" || containsStr lp ".spec.port" ||
            containsStr lp ".spec.type" then "Service Configuration"
        else if containsStr lp ".spec.selector" || containsStr lp ".spec.matchlabels" then
          "Selectors & Matching"
        else if containsStr lp ".spec.resources" || containsStr lp ".spec.limits" ||
            containsStr lp ".spec.requests" then "Resources"
        else if containsStr lp ".spec.env" || containsStr lp ".spec.configmap" ||
            containsStr lp ".spec.secret" then "Environment & Config"
        else if containsStr lp ".spec.volume" || containsStr lp ".spec.persistentvolume" then
          "Storage & Volumes"
        else if containsStr lp ".spec.ingress" || containsStr lp ".spec.host" ||
            containsStr lp ".spec.path" then "Networking"
        else "Spec Changes"
      else if containsStr lp ".data." || containsStr lp "configmap" || containsStr lp "secret" then
        "Configuration Data"
      else if kind ≠ "" then kind else "Other"

/-! ## Resource segmenter (`parseDiffByResources`)

`ResourceDiff` mirrors the source's interface; the source's `diff` field is
always the `'\n'`-join of `lines` and is omitted.  The TypeScript `namespace`
field (a reserved word in Lean) is called `ns`; `none` models `undefined`. -/

structure ResourceDiff where
  category : String
  path : String
  kind : String
  name : String
  ns : Option String
  lines : List String
deriving Repr, DecidableEq

/-- Identifier parsing (lines 182-202 of the source): returns
`(kind, name, namespace-as-parsed)`.  JavaScript `undefined`/absence is
`none`; the `|| 'Unknown'` / `|| 'unknown'` fallbacks treat the empty
string as falsy. -/
def parseResourceId (content : String) : String × String × Option String :=
  let parts := splitStr content '/'
  if parts.length = 3 then
    (parts.getD 0 "", parts.getD 2 "", some (parts.getD 1 ""))
  else if parts.length = 4 then
    (parts.getD 1 "", parts.getD 3 "", some (parts.getD 2 ""))
  else
    let k0 := parts.getD 0 ""
    let last := parts.getD (parts.length - 1) ""
    ((if k0 = "" then "Unknown" else k0),
     (if last = "" then "unknown" else last),
     (if parts.length > 2 then some (parts.getD 1 "") else none))

/-- The `namespace === 'default' || namespace === '' ? undefined : namespace`
normalization applied when a dyff-format resource is constructed. -/
def normalizeNs (ns : Option String) : Option String :=
  if ns = some "default" ∨ ns = some "" then none else ns

/-- The resource object opened at a dyff header line (lines 204-219). -/
def mkDyffResource (trimmed : String) : ResourceDiff :=
  match firstParenMatch trimmed with
  | some content =>
      let (kind, name, nsRaw) := parseResourceId content
      let pathPart := jsTrim ((splitStr trimmed '(').getD 0 "")
      { category := categorizeChange pathPart kind
        path := pathPart
        kind := kind
        name := name
        ns := normalizeNs nsRaw
        lines := [] }
  | none =>
      { category := "Other", path := "", kind := "Unknown", name := "all",
        ns := none, lines := [] }

/-- Flush of the open group at a header line or end of input
(`if (currentResource && currentSection.length > 0)`). -/
def flushGroup (cur : Option ResourceDiff) (sect : List String)
    (acc : List ResourceDiff) : List ResourceDiff :=
  match cur with
  | some r => if sect.length > 0 then acc ++ [{ r with lines := sect }] else acc
  | none => acc

/-- The blank-line lookahead (lines 228-236): the next line with a non-empty
trim decides whether a new resource follows. -/
def lookaheadNextIsResource (rest : List String) : Bool :=
  match rest.find? (fun l => !(jsTrim l == "")) with
  | some l => (firstParenMatch (jsTrim l)).isSome
  | none => false

/-- The dyff-format scanning loop of `parseDiffByResources`
(lines 165-276), with the mutable `currentResource`, `currentSection` and
`resources` variables made explicit. -/
def dyffScan : List String → Option ResourceDiff → List String →
    List ResourceDiff → List ResourceDiff
  | [], cur, sect, acc => flushGroup cur sect acc
  | line :: rest, cur, sect, acc =>
      let trimmed := jsTrim line
      if (firstParenMatch trimmed).isSome then
        dyffScan rest (some (mkDyffResource trimmed)) [line] (flushGroup cur sect acc)
      else
        match cur with
        | some r =>
            if jsTrim line = "" ∧ rest ≠ [] then
              if lookaheadNextIsResource rest then
                dyffScan rest none [] (acc ++ [{ r with lines := sect }])
              else
                dyffScan rest (some r) (sect ++ [line]) acc
            else
              dyffScan rest (some r) (sect ++ [line]) acc
        | none =>
            if startsWithStr trimmed "+++" || startsWithStr trimmed "---" then
              dyffScan rest
                (some { category := "Other", path := "", kind := "Unknown",
                        name := "all", ns := none, lines := [] })
                (sect ++ [line]) acc
            else
              dyffScan rest none sect acc

/-- Section splitting of the YAML fallback (lines 284-301): a line whose
trim is exactly `---` closes the current section and starts a new one. -/
def splitSections : List String → List String → List (List String)
  | [], cursect => if cursect.length > 0 then [cursect] else []
  | line :: rest, cursect =>
      if jsTrim line = "---" then
        if cursect.length > 0 then cursect :: splitSections rest [line]
        else splitSections rest (cursect ++ [line])
      else splitSections rest (cursect ++ [line])

/-- Drop of a single leading `+` or `-` marker (`[+-]?`). -/
def dropMarker : List Char → List Char
  | '+' :: rest => rest
  | '-' :: rest => rest
  | cs => cs

/-- `trimmed.match(/^[+-]?\s*<kw>:\s*(.+)$/i)` followed by the source's
second capture of `/<kw>:\s*(.+)$/i` and `.trim()`: on a trimmed line, the
value exists iff the line is marker + whitespace + the keyword + `:` +
a non-empty remainder; the value is the trimmed remainder. -/
def fieldValue (keyword : String) (trimmed : String) : Option String :=
  let cs := (dropMarker trimmed.data).dropWhile jsWS
  let kw := keyword.data.map Char.toLower ++ [':']
  if isPrefixC kw (cs.map Char.toLower) then
    let v := trimChars (cs.drop kw.length)
    if v.length = 0 then none else some ⟨v⟩
  else none

/-- `.replace(/["']/g, '')`. -/
def stripQuotes (s : String) : String :=
  ⟨s.data.filter (fun c => c ≠ '"' ∧ c ≠ '\'')⟩

/-- The per-section field extraction of the fallback (lines 307-336).  The
JavaScript variables start as `null` and are also treated as unset when
empty (`!kind` is true for both `null` and `''`), so they are modelled as
strings with `""` for unset. -/
def extractFields : List String → String → String → String → String × String × String
  | [], k, n, ns => (k, n, ns)
  | line :: rest, k, n, ns =>
      let trimmed := jsTrim line
      let k := if k = "" then
                 match fieldValue "kind" trimmed with
                 | some v => stripQuotes v
                 | none => k
               else k
      let n := if k ≠ "" ∧ n = "" then
                 match fieldValue "name" trimmed with
                 | some v => stripQuotes v
                 | none => n
               else n
      let ns := if ns = "" then
                  match fieldValue "namespace" trimmed with
                  | some v => stripQuotes v
                  | none => ns
                else ns
      extractFields rest k n ns

/-- Fallback resource construction (lines 304-349).  A section is skipped
when its joined text trims to nothing, i.e. when every line trims to `""`. -/
def fallbackResources (sections : List (List String)) : List ResourceDiff :=
  sections.filterMap (fun sect =>
    if sect.all (fun l => jsTrim l == "") then none
    else
      let (k, n, ns) := extractFields sect "" "" ""
      if k ≠ "" then
        some { category := categorizeChange "" k, path := "", kind := k,
               name := if n = "" then "unknown" else n,
               ns := if ns = "" then none else some ns,
               lines := sect }
      else none)

/-- `parseDiffByResources(diff)`: dyff scan, then the YAML fallback, then
the single catch-all group. -/
def parseDiffByResources (diff : String) : List ResourceDiff :=
  let lines := linesOf diff
  let resources := dyffScan lines none [] []
  if resources.length > 0 then resources
  else
    let resources2 := fallbackResources (splitSections lines [])
    if resources2.length = 0 then
      [{ category := "All Changes", path := "", kind := "All Resources",
         name := "all", ns := none, lines := lines }]
    else resources2

/-! ## Statistics aggregator (`calculateStatistics`) -/

structure ChangeSummary where
  totalResources : Nat
  resourcesAdded : Nat
  resourcesRemoved : Nat
  resourcesModified : Nat
  resourcesUnchanged : Nat
  totalChanges : Nat
deriving Repr, DecidableEq

structure ResourceStats where
  kind : String
  count : Nat
  added : Nat
  removed : Nat
  modified : Nat
deriving Repr, DecidableEq

structure CategoryStats where
  category : String
  count : Nat
  resources : List String
deriving Repr, DecidableEq

structure LineStats where
  added : Nat
  removed : Nat
  unchanged : Nat
  total : Nat
deriving Repr, DecidableEq

structure CriticalChange where
  resource : String
  kind : String
  field : String
  description : String
deriving Repr, DecidableEq

structure BreakingChange where
  resource : String
  kind : String
  field : String
  description : String
  severity : String
deriving Repr, DecidableEq

structure ChangeImpact where
  level : String
  criticalChanges : List CriticalChange
  breakingChanges : List BreakingChange
deriving Repr, DecidableEq

structure ChangeStatistics where
  summary : ChangeSummary
  byKind : List ResourceStats
  byCategory : List CategoryStats
  lines : LineStats
  impact : ChangeImpact
deriving Repr, DecidableEq

/-- The mutable record held per kind in the source's `kindMap`. -/
structure KindCounts where
  added : Nat
  removed : Nat
  modified : Nat
  count : Nat
deriving Repr, DecidableEq

/-- `kindMap.set(kind, {0,0,0,0})` when absent (JavaScript `Map` keeps
insertion order, modelled by appending). -/
def ensureKey (m : List (String × KindCounts)) (k : String) : List (String × KindCounts) :=
  if m.any (fun p => p.1 == k) then m else m ++ [(k, ⟨0, 0, 0, 0⟩)]

/-- In-place mutation of the record stored under `k`. -/
def adjustKey (m : List (String × KindCounts)) (k : String) (f : KindCounts → KindCounts) :
    List (String × KindCounts) :=
  m.map (fun p => if p.1 = k then (p.1, f p.2) else p)

/-- `categoryMap.get(category).add(resourceKey)` with `Set` insertion order. -/
def addToSet (s : List String) (key : String) : List String :=
  if s.contains key then s else s ++ [key]

/-- `categoryMap` handling: ensure the category's set exists, then add. -/
def addCategoryKey (m : List (String × List String)) (cat key : String) :
    List (String × List String) :=
  let m := if m.any (fun p => p.1 == cat) then m else m ++ [(cat, [])]
  m.map (fun p => if p.1 = cat then (p.1, addToSet p.2 key) else p)

/-- ``resource.kind + '/' + resource.name + (namespace ? '/' + namespace : '')``. -/
def resourceKeyOf (r : ResourceDiff) : String :=
  r.kind ++ "/" ++ r.name ++
    (match r.ns with
     | some n => if n = "" then "" else "/" ++ n
     | none => "")

/-- Accumulator of the per-line scan (lines 471-527): line counters, the
`hasAdditions`/`hasRemovals` flags, and the critical/breaking change lists. -/
structure LineAcc where
  added : Nat
  removed : Nat
  unchanged : Nat
  hasAdd : Bool
  hasRem : Bool
  crit : List CriticalChange
  brk : List BreakingChange
deriving Repr, DecidableEq

/-- One line of the per-resource scan. -/
def scanLine (resourceKey rkind rpath : String) (a : LineAcc) (line : String) : LineAcc :=
  let trimmed := jsTrim line
  let a :=
    if startsWithStr trimmed "+" ∧ ¬ startsWithStr trimmed "+++" then
      { a with added := a.added + 1, hasAdd := true }
    else if startsWithStr trimmed "-" ∧ ¬ startsWithStr trimmed "---" then
      { a with removed := a.removed + 1, hasRem := true }
    else if trimmed ≠ "" ∧ ¬ startsWithStr trimmed "+++" ∧ ¬ startsWithStr trimmed "---" then
      { a with unchanged := a.unchanged + 1 }
    else a
  let a :=
    if containsStr trimmed ".spec.replicas" then
      { a with crit := a.crit ++ [⟨resourceKey, rkind, "replicas", "Replica count changed"⟩] }
    else a
  let a :=
    if containsStr trimmed ".spec.template.spec.containers" ∧ containsStr trimmed "image:" then
      { a with crit := a.crit ++ [⟨resourceKey, rkind, "image", "Container image changed"⟩] }
    else a
  let a :=
    if containsStr trimmed ".spec.resources" then
      { a with crit := a.crit ++
          [⟨resourceKey, rkind, "resources", "Resource limits/requests changed"⟩] }
    else a
  if startsWithStr trimmed "-" ∧ ¬ startsWithStr trimmed "---" ∧
      (containsStr trimmed "required:" ∨ containsStr trimmed "requiredFields:") then
    { a with brk := a.brk ++
        [⟨resourceKey, rkind, rpath, "Required field removed", "high"⟩] }
  else a

/-- State of the fold over resources. -/
structure StatAcc where
  totalResources : Nat
  resourcesAdded : Nat
  resourcesRemoved : Nat
  resourcesModified : Nat
  resourcesUnchanged : Nat
  kindMap : List (String × KindCounts)
  categoryMap : List (String × List String)
  linesAdded : Nat
  linesRemoved : Nat
  linesUnchanged : Nat
  crit : List CriticalChange
  brk : List BreakingChange
  resourceSet : List String
deriving Repr

/-- One iteration of the `for (const resource of resources)` loop
(lines 449-543). -/
def processResource (a : StatAcc) (r : ResourceDiff) : StatAcc :=
  let resourceKey := resourceKeyOf r
  let a :=
    if a.resourceSet.contains resourceKey then a
    else { a with resourceSet := a.resourceSet ++ [resourceKey],
                  totalResources := a.totalResources + 1 }
  let a := { a with
    kindMap := adjustKey (ensureKey a.kindMap r.kind) r.kind
      (fun c => { c with count := c.count + 1 }) }
  let a := { a with categoryMap := addCategoryKey a.categoryMap r.category resourceKey }
  let la := r.lines.foldl (scanLine resourceKey r.kind r.path)
      ⟨0, 0, 0, false, false, [], []⟩
  let a := { a with linesAdded := a.linesAdded + la.added,
                    linesRemoved := a.linesRemoved + la.removed,
                    linesUnchanged := a.linesUnchanged + la.unchanged,
                    crit := a.crit ++ la.crit, brk := a.brk ++ la.brk }
  if la.hasAdd ∧ la.hasRem then
    { a with
      kindMap := adjustKey a.kindMap r.kind (fun c => { c with modified := c.modified + 1 })
      resourcesModified := a.resourcesModified + 1 }
  else if la.hasAdd ∧ ¬ la.hasRem then
    { a with
      kindMap := adjustKey a.kindMap r.kind (fun c => { c with added := c.added + 1 })
      resourcesAdded := a.resourcesAdded + 1 }
  else if la.hasRem ∧ ¬ la.hasAdd then
    { a with
      kindMap := adjustKey a.kindMap r.kind (fun c => { c with removed := c.removed + 1 })
      resourcesRemoved := a.resourcesRemoved + 1 }
  else
    { a with resourcesUnchanged := a.resourcesUnchanged + 1 }

/-- Stable insertion by descending key, modelling the stable
`Array.prototype.sort((a, b) => b.count - a.count)`. -/
def insertDescBy (key : α → Nat) (x : α) : List α → List α
  | [] => [x]
  | y :: ys => if key y ≤ key x then x :: y :: ys else y :: insertDescBy key x ys

/-- Stable sort by descending key. -/
def sortDescBy (key : α → Nat) : List α → List α
  | [] => []
  | x :: xs => insertDescBy key x (sortDescBy key xs)

def emptyStatAcc : StatAcc := ⟨0, 0, 0, 0, 0, [], [], 0, 0, 0, [], [], []⟩

/-- `calculateStatistics(resources, diff)`. -/
def calculateStatistics (resources : List ResourceDiff) (diff : String) : ChangeStatistics :=
  let a := resources.foldl processResource emptyStatAcc
  let byKind := sortDescBy (fun s => s.count)
    (a.kindMap.map (fun p => ResourceStats.mk p.1 p.2.count p.2.added p.2.removed p.2.modified))
  let byCategory := sortDescBy (fun s => s.count)
    (a.categoryMap.map (fun p => CategoryStats.mk p.1 p.2.length p.2))
  let impactLevel :=
    if a.resourcesRemoved > 0 ∨ a.brk.length > 0 ∨ a.crit.length > 5 then "high"
    else if a.resourcesModified > 0 ∨ a.crit.length > 0 then "medium"
    else "low"
  { summary := ⟨a.totalResources, a.resourcesAdded, a.resourcesRemoved,
                a.resourcesModified, a.resourcesUnchanged, resources.length⟩
    byKind := byKind
    byCategory := byCategory
    lines := ⟨a.linesAdded, a.linesRemoved, a.linesUnchanged, (linesOf diff).length⟩
    impact := ⟨impactLevel, a.crit.take 10, a.brk.take 10⟩ }

/-! ## Filter chain (the body of `DiffDisplay`) -/

/-- A line that opens a metadata block (line 790): lower-cased line contains
`metadata.` and the line matches the 3-part identifier pattern. -/
def metaStart (line : String) : Bool :=
  containsStr (lowerStr line) "metadata." && paren3 line

/-- The blank-line lookahead of the metadata filter (lines 822-841): it
inspects at most the next 4 lines; the first one with a non-empty trim
decides.  Returns the new value of `skipMode` (initially `true` here). -/
def metaBlankLook : List String → Bool
  | [] => true
  | l :: ls =>
      if jsTrim l = "" then metaBlankLook ls
      else if paren3 (jsTrim l) then
        if ¬ containsStr (lowerStr l) "metadata." then false else true
      else true

/-- The `ignoreLabels` metadata-suppression scan (lines 780-858) with the
mutable `skipMode` made explicit.  Note that on the "unexpected content"
path the source pushes the line, clears `skipMode`, falls through, and
pushes the line a second time. -/
def ignoreLabelsScan : List String → Bool → List String
  | [], _ => []
  | line :: rest, skipMode =>
      let trimmed := jsTrim line
      if metaStart line then ignoreLabelsScan rest true
      else if skipMode then
        if paren3 trimmed then
          if ¬ containsStr (lowerStr line) "metadata." then
            line :: ignoreLabelsScan rest false
          else ignoreLabelsScan rest true
        else if trimmed = "¬± value change" then ignoreLabelsScan rest true
        else if startsWithStr trimmed "-" || startsWithStr trimmed "+" then
          ignoreLabelsScan rest true
        else if trimmed = "" then ignoreLabelsScan rest (metaBlankLook (rest.take 4))
        else line :: line :: ignoreLabelsScan rest false
      else line :: ignoreLabelsScan rest false

/-- The metadata filter as a text transformation. -/
def ignoreLabelsFilter (s : String) : String :=
  unlines (ignoreLabelsScan (linesOf s) false)

/-- Kind extraction in the kind-suppression filter (line 875):
`parts.length >= 2 ? parts[parts.length - 3] || parts[0] : parts[0]`. -/
def filterKindOf (content : String) : String :=
  let parts := splitStr content '/'
  if parts.length ≥ 2 then
    let k := if parts.length ≥ 3 then parts.getD (parts.length - 3) "" else ""
    if k = "" then parts.getD 0 "" else k
  else parts.getD 0 ""

/-- The kind-suppression scan (lines 866-885) with the mutable
`skipResource` made explicit; the identifier pattern is matched against the
un-trimmed line. -/
def suppressKindsScan : List String → Bool → List String → List String
  | [], _, _ => []
  | line :: rest, skipResource, kinds =>
      let skip :=
        match firstParenMatch line with
        | some content =>
            kinds.any (fun sk => lowerStr (filterKindOf content) == lowerStr sk)
        | none => skipResource
      (if skip then [] else [line]) ++ suppressKindsScan rest skip kinds

/-- The kind-suppression filter with its `suppressKinds.length > 0` guard. -/
def suppressKindsFilter (s : String) (kinds : List String) : String :=
  if kinds.length > 0 then unlines (suppressKindsScan (linesOf s) false kinds) else s

/-- The regex-suppression step (lines 887-896).  JavaScript regular
expression compilation and matching are outside the embedding; the compiled
regex is represented by an optional line predicate: `none` when
`suppressRegex` is absent, empty (the `if (suppressRegex)` guard) or when
`new RegExp` throws (the `catch` leaves `processedDiff` unchanged);
`some test` models a successfully compiled regex with `test = regex.test`. -/
def suppressRegexFilter (s : String) (compiled : Option (String → Bool)) : String :=
  match compiled with
  | none => s
  | some test => unlines ((linesOf s).filter (fun l => !(test l)))

/-! ### Secret handling

`atob` is the WHATWG forgiving-base64 decoder: strip ASCII whitespace; when
the length is a multiple of 4, drop up to two trailing `=`; fail when the
remaining length is `1 mod 4` or any character is outside the base64
alphabet; decode 6-bit groups into bytes (returned as a latin-1 string). -/

def b64Val (c : Char) : Option Nat :=
  if 'A' ≤ c ∧ c ≤ 'Z' then some (c.toNat - 65)
  else if 'a' ≤ c ∧ c ≤ 'z' then some (c.toNat - 97 + 26)
  else if '0' ≤ c ∧ c ≤ '9' then some (c.toNat - 48 + 52)
  else if c = '+' then some 62
  else if c = '/' then some 63
  else none

/-- Sextet groups to bytes; a trailing group of one sextet is invalid. -/
def b64Bytes : List Nat → Option (List Nat)
  | [] => some []
  | [_] => none
  | [a, b] => some [a * 4 + b / 16]
  | [a, b, c] => some [a * 4 + b / 16, (b % 16) * 16 + c / 4]
  | a :: b :: c :: d :: rest =>
      (b64Bytes rest).map
        (fun tail => (a * 4 + b / 16) :: ((b % 16) * 16 + c / 4) :: ((c % 4) * 64 + d) :: tail)

/-- `window.atob`. -/
def atob (s : String) : Option String :=
  let cs := s.data.filter (fun c => ¬ (c = ' ' ∨ c = '\t' ∨ c = '\n' ∨ c = '\r' ∨ c = '\x0c'))
  let cs :=
    if cs.length % 4 = 0 then
      match cs.reverse with
      | '=' :: '=' :: r => r.reverse
      | '=' :: r => r.reverse
      | _ => cs
    else cs
  if cs.length % 4 = 1 then none
  else
    match (cs.mapM b64Val) with
    | none => none
    | some sextets => (b64Bytes sextets).map (fun bytes => ⟨bytes.map Char.ofNat⟩)

/-- Is `c` in `[A-Za-z0-9+/=]`? -/
def isB64Char (c : Char) : Bool :=
  ('A' ≤ c ∧ c ≤ 'Z') || ('a' ≤ c ∧ c ≤ 'z') || ('0' ≤ c ∧ c ≤ '9') ||
    c = '+' || c = '/' || c = '='

/-- The length of `dropWhile` is at most the length of the input. -/
theorem length_dropWhileC_le (p : Char → Bool) (l : List Char) :
    (l.dropWhile p).length ≤ l.length := by
  induction l with
  | nil => simp [List.dropWhile]
  | cons c t ih =>
      by_cases h : p c
      · rw [List.dropWhile_cons_of_pos h]; simp; omega
      · rw [List.dropWhile_cons_of_neg h]

/-- The length of `takeWhile` is at most the length of the input. -/
theorem length_takeWhileC_le (p : Char → Bool) (l : List Char) :
    (l.takeWhile p).length ≤ l.length := by
  induction l with
  | nil => simp [List.takeWhile]
  | cons c t ih =>
      by_cases h : p c
      · rw [List.takeWhile_cons_of_pos h]; simpa using ih
      · rw [List.takeWhile_cons_of_neg h]; simp

/-- The head of `dropWhile p l` fails `p`. -/
theorem dropWhile_head_false (p : Char → Bool) :
    ∀ (l : List Char) (x : Char) (xs : List Char), l.dropWhile p = x :: xs → p x = false := by
  intro l
  induction l with
  | nil => intro x xs h; simp [List.dropWhile] at h
  | cons c t ih =>
      intro x xs h
      by_cases hc : p c
      · rw [List.dropWhile_cons_of_pos hc] at h; exact ih x xs h
      · rw [List.dropWhile_cons_of_neg hc] at h
        cases h; simpa using hc

/-- Global scan of `/<kw>\s*([^\n]+)/gi` with a replacement callback,
modelling `String.prototype.replace` for the two redaction patterns
(`kw` is the lower-cased keyword with trailing colon, e.g. `data:`).
At a case-insensitive keyword occurrence, `\s*` greedily takes the
whitespace run; the `[^\n]+` capture is then the rest of the current line
and must be non-empty.  When the whitespace run reaches a newline or the
end of the text, backtracking could only produce a single-whitespace
capture, for which neither redaction condition holds and the engine leaves
the text unchanged there, so the scan simply advances one character (the
result is identical).  `redact` decides whether the matched region is
replaced by `rep`; scanning resumes after the match, as with the `g` flag.
The first argument is recursion fuel; every step consumes at least one
character, so fuel equal to the input length (supplied by `redactScan`)
suffices. -/
def redactScanF (kw : List Char) (redact : List Char → Bool) (rep : List Char) :
    Nat → List Char → List Char
  | _, [] => []
  | 0, cs => cs
  | fuel + 1, c :: rest =>
      if isPrefixC kw ((c :: rest).map Char.toLower) then
        let r := (c :: rest).drop kw.length
        let w := r.takeWhile jsWS
        let rest2 := r.dropWhile jsWS
        if rest2 = [] then c :: redactScanF kw redact rep fuel rest
        else
          let cap := rest2.takeWhile (fun d => d ≠ '\n')
          let tail := rest2.drop cap.length
          if redact cap then rep ++ redactScanF kw redact rep fuel tail
          else ((c :: rest).take kw.length) ++ w ++ cap ++ redactScanF kw redact rep fuel tail
      else c :: redactScanF kw redact rep fuel rest

def redactScan (kw : List Char) (redact : List Char → Bool) (rep : List Char)
    (cs : List Char) : List Char :=
  redactScanF kw redact rep cs.length cs

/-- The redaction condition of the `data:` rule: replace when the captured
value contains a colon. -/
def dataRedactCond (cap : List Char) : Bool := cap.any (fun d => d = ':')

/-- The redaction condition of the `value:` rule: replace when the captured
value is longer than 20 characters or matches `/^[A-Za-z0-9+\/=]+$/`. -/
def valueRedactCond (cap : List Char) : Bool :=
  decide (20 < cap.length) || (decide (cap ≠ []) && cap.all isB64Char)

/-- `secretHandling === 'suppress'` (lines 899-912): the `data:` redaction
followed by the `value:` redaction. -/
def suppressSecrets (cs : List Char) : List Char :=
  redactScan "value:".data valueRedactCond "value: [REDACTED]".data
    (redactScan "data:".data dataRedactCond "data: [REDACTED]".data cs)

/-- `secretHandling === 'decode'` (lines 913-924): the global scan of
`/value:\s*([A-Za-z0-9+\/=]+)/g` (case-sensitive).  At a `value:`
occurrence, `\s*` greedily takes the whitespace run; the capture is the
following maximal run of base64-alphabet characters and must be non-empty
(whitespace characters are not in the alphabet, so backtracking cannot
help and the engine advances when the run is empty).  On a successful
`atob` the match is replaced by
``value: <decoded> (decoded from base64)``; on failure the match is kept
verbatim.  The first argument is recursion fuel, as in `redactScanF`. -/
def decodeScanF : Nat → List Char → List Char
  | _, [] => []
  | 0, cs => cs
  | fuel + 1, c :: rest =>
      if isPrefixC "value:".data (c :: rest) then
        let r := (c :: rest).drop 6
        let w := r.takeWhile jsWS
        let afterWs := r.dropWhile jsWS
        let cap := afterWs.takeWhile isB64Char
        if cap = [] then c :: decodeScanF fuel rest
        else
          let tail := afterWs.drop cap.length
          match atob ⟨cap⟩ with
          | some decoded =>
              "value: ".data ++ decoded.data ++ " (decoded from base64)".data ++
                decodeScanF fuel tail
          | none => "value:".data ++ w ++ cap ++ decodeScanF fuel tail
      else c :: decodeScanF fuel rest

def decodeScan (cs : List Char) : List Char := decodeScanF cs.length cs

/-- The secret-handling step (lines 898-924): `suppress` applies the two
redactions, `decode` the base64 decoding scan, anything else (`show`) is a
no-op. -/
def applySecretHandling (s : String) (secretHandling : String) : String :=
  if secretHandling = "suppress" then ⟨suppressSecrets s.data⟩
  else if secretHandling = "decode" then ⟨decodeScan s.data⟩
  else s

/-- The loop of `applyContextLines` (lines 672-696): index `i`, the index
of the last change line (`-1` initially), and the accumulated result.  The
first argument is recursion fuel; `applyContextLines` supplies
`lines.length`, which is exactly the number of iterations. -/
def aclLoop (lines : List String) (ctx : Nat) : Nat → Nat → Int → List String → List String
  | 0, _, _, res => res
  | fuel + 1, i, lastChange, res =>
      if i < lines.length then
        let trimmed := jsTrim (lines.getD i "")
        if startsWithStr trimmed "+" || startsWithStr trimmed "-" then
          let cs := i - ctx
          let ce := min lines.length (i + ctx + 1)
          let res := if 0 ≤ lastChange ∧ lastChange + 1 < (cs : Int) then res ++ ["..."] else res
          let pushed := (((List.range (ce - cs)).map (fun j => j + cs)).filter
              (fun j : Nat => decide (lastChange + 1 ≤ (j : Int)) || decide (j = i))).map
              (fun j => lines.getD j "")
          aclLoop lines ctx fuel (i + 1) (i : Int) (res ++ pushed)
        else aclLoop lines ctx fuel (i + 1) lastChange res
      else res

/-- `applyContextLines(lines, contextLines)` (lines 664-704): negative
`contextLines` and a change-free input return the input unchanged. -/
def applyContextLines (lines : List String) (contextLines : Int) : List String :=
  if contextLines < 0 then lines
  else
    let res := aclLoop lines contextLines.toNat lines.length 0 (-1) []
    if res.length = 0 then lines else res

/-! ## The `DiffDisplay` pipeline -/

/-- The text-level filter chain of the `DiffDisplay` body (lines 772-924):
metadata suppression (guarded by `ignoreLabels` and a non-empty diff),
kind suppression, regex suppression, then secret handling. -/
def processDiff (diff : String) (ignoreLabels : Bool) (suppressKinds : List String)
    (suppressRegex : Option (String → Bool)) (secretHandling : String) : String :=
  let filteredDiff := if ignoreLabels ∧ diff ≠ "" then ignoreLabelsFilter diff else diff
  let processedDiff := suppressKindsFilter filteredDiff suppressKinds
  let processedDiff := suppressRegexFilter processedDiff suppressRegex
  applySecretHandling processedDiff secretHandling

/-- The segmented, categorized, context-trimmed resource collection the
component renders (lines 926-934): empty when the diff trims to nothing,
otherwise the parse of the processed diff with `applyContextLines` applied
to each group when `contextLines ≥ 0`. -/
def displayResources (diff : String) (ignoreLabels : Bool) (suppressKinds : List String)
    (suppressRegex : Option (String → Bool)) (secretHandling : String)
    (contextLines : Int) : List ResourceDiff :=
  if jsTrim diff = "" then []
  else
    let processed := processDiff diff ignoreLabels suppressKinds suppressRegex secretHandling
    let rs := parseDiffByResources processed
    if 0 ≤ contextLines then
      rs.map (fun r => { r with lines := applyContextLines r.lines contextLines })
    else rs

/-! ## Concrete scenario inputs from the claims -/

/-- The raw diff text of the round-trip scenario (spec section 8, item 6). -/
def c1Raw : String :=
  "metadata.labels.foo  (v1/ServiceAccount/default/svc-account)\n- old\n+ new\n\nspec.replicas  (v1/Deployment/ns1/my-app)\n- 1\n+ 3"

/-- The raw diff text of the fallback scenario (spec section 8, item 9). -/
def c2Raw : String := "kind: Service\nname: my-svc\n---\nkind: Deployment\nname: my-app"

/-! ## C1 -/

/-- C1, counterexample.  On the round-trip scenario input the claim fails:
`categorizeChange` consults the kind table before any path cue, so the two
groups are categorized "RBAC" and "Workloads" (not "Metadata & Tags" and
"Scaling"), and no critical change is reported, because the header line
`spec.replicas  (...)` does not contain the substring `.spec.replicas`
(no leading dot). -/
theorem c1_counterexample :
    ¬ ((parseDiffByResources c1Raw).map ResourceDiff.category =
          ["Metadata & Tags", "Scaling"] ∧
       (calculateStatistics (parseDiffByResources c1Raw) c1Raw).impact.criticalChanges.map
          CriticalChange.field = ["replicas"]) := by
  decide

/-- C1, amended: on the round-trip scenario input with `ignoreLabels=false`,
segmentation yields exactly 2 groups — kind `ServiceAccount`, name
`svc-account`, namespace absent, category `"RBAC"`, and kind `Deployment`,
name `my-app`, namespace `"ns1"`, category `"Workloads"` — and
`Statistics.summary.totalResources = 2` with zero critical changes. -/
theorem c1_roundtrip_scenario :
    (parseDiffByResources c1Raw).map (fun r => (r.kind, r.name, r.ns, r.category)) =
      [("ServiceAccount", "svc-account", none, "RBAC"),
       ("Deployment", "my-app", some "ns1", "Workloads")] ∧
    (calculateStatistics (parseDiffByResources c1Raw) c1Raw).summary.totalResources = 2 ∧
    (calculateStatistics (parseDiffByResources c1Raw) c1Raw).impact.criticalChanges = [] := by
  refine ⟨by decide, by decide, by decide⟩

/-! ## C2 -/

/-- C2, counterexample.  The fallback scenario input does not produce two
groups: the `---` separator line satisfies the `trimmed.startsWith('---')`
test of the traditional-diff-header branch, which opens a synthetic
`Unknown/all` group, so the dyff scan returns one group and the
line-oriented fallback is never reached. -/
theorem c2_counterexample : ¬ ((parseDiffByResources c2Raw).length = 2) := by
  decide

/-- C2, amended: the fallback scenario input yields exactly one group via
the traditional-diff-header path: the `---` line opens a synthetic group
with kind `Unknown`, name `all`, category `Other`, holding the `---` line
and the lines after it, while the `kind: Service` and `name: my-svc` lines
before it are discarded. -/
theorem c2_fallback_scenario :
    parseDiffByResources c2Raw =
      [{ category := "Other", path := "", kind := "Unknown", name := "all",
         ns := none, lines := ["---", "kind: Deployment", "name: my-app"] }] := by
  decide

/-! ## C5, counterexample -/

/-- C5, counterexample.  On the line-oriented fallback route a parsed
namespace equal to `"default"` is kept: the `default`-to-absent
normalization (line 216) only runs when a dyff-format resource is
constructed, while the fallback constructor (line 344) uses
`namespace || undefined`, which keeps `"default"`. -/
theorem c5_counterexample :
    ¬ (∀ r ∈ parseDiffByResources "kind: Service\nname: my-svc\nnamespace: default",
        r.ns ≠ some "default") := by
  decide

/-! ## C3, counterexample -/

/-- C3, counterexample.  With raw text in the line-oriented fallback format
(no parenthesized identifiers) the kind-suppression filter drops no line,
so a group whose kind is (case-insensitively) in `suppressKinds` survives
the full filter chain and re-segmentation. -/
theorem c3_counterexample :
    ¬ (∀ r ∈ parseDiffByResources
          (processDiff "kind: Service\nname: my-svc" false ["Service"] none "show"),
        (["Service"].any (fun sk => lowerStr r.kind == lowerStr sk)) = false) := by
  decide

/-! ## C4, counterexample -/

/-- C4, counterexample.  Context windows of nearby changes overlap:
`applyContextLines ["+a", "b", "+c"] 1 = ["+a", "b", "b", "+c"]`, so the
context line `"b"` appears twice in the output but only once in the input
(the inner loop excludes only indexes up to the previous change line, not
up to the last pushed index). -/
theorem c4_counterexample :
    ¬ ((applyContextLines ["+a", "b", "+c"] 1).count "b" ≤
        (["+a", "b", "+c"] : List String).count "b") := by
  decide

/-! ## C6, counterexample -/

/-- C6, counterexample.  With `ignoreLabels=true` but
`secretHandling="decode"`, a surviving line can contain `metadata.`
together with a parenthesized identifier: the metadata filter runs before
secret handling, and base64 decoding of
`value: bWV0YWRhdGEueCAoYS9iL2Mp` rewrites the (clean) line into
`value: metadata.x (a/b/c) (decoded from base64)`. -/
theorem c6_counterexample :
    ¬ (∀ r ∈ parseDiffByResources
          (processDiff "value: bWV0YWRhdGEueCAoYS9iL2Mp" true [] none "decode"),
        ∀ l ∈ r.lines,
          ¬ (containsStr (lowerStr l) "metadata." = true ∧ paren3 l = true)) := by
  decide

/-! ## C8 -/

/-- C8: under `secretHandling="suppress"` the line
`value: QWxhZGRpbjpvcGVuc2VzYW1l` becomes `value: [REDACTED]`; under
`"decode"` it becomes `value: Aladdin:opensesame (decoded from base64)`;
under `"show"` it is unchanged; and in decode mode a line whose value
fails base64 decoding (`QQQQQ` has length 1 mod 4) is left unmodified. -/
theorem c8_secret_handling :
    applySecretHandling "value: QWxhZGRpbjpvcGVuc2VzYW1l" "suppress" =
      "value: [REDACTED]" ∧
    applySecretHandling "value: QWxhZGRpbjpvcGVuc2VzYW1l" "decode" =
      "value: Aladdin:opensesame (decoded from base64)" ∧
    applySecretHandling "value: QWxhZGRpbjpvcGVuc2VzYW1l" "show" =
      "value: QWxhZGRpbjpvcGVuc2VzYW1l" ∧
    applySecretHandling "value: QQQQQ" "decode" = "value: QQQQQ" := by
  refine ⟨by decide, by decide, by decide, by decide⟩

/-! ## Split/join round-trip lemmas -/

theorem splitOnC_ne_nil (sep : Char) (cs : List Char) : splitOnC sep cs ≠ [] := by
  induction cs with
  | nil => simp [splitOnC]
  | cons c rest ih =>
      simp only [splitOnC]
      by_cases h : c = sep
      · simp [h]
      · simp only [if_neg h]
        rcases hr : splitOnC sep rest with _ | ⟨p, t⟩
        · exact absurd hr ih
        · simp

theorem mem_splitOnC (sep : Char) (cs : List Char) :
    ∀ piece ∈ splitOnC sep cs, sep ∉ piece := by
  induction cs with
  | nil =>
      intro piece hp
      simp [splitOnC] at hp
      simp [hp]
  | cons c rest ih =>
      intro piece hp
      simp only [splitOnC] at hp
      by_cases h : c = sep
      · rw [if_pos h] at hp
        rcases List.mem_cons.mp hp with hp | hp
        · simp [hp]
        · exact ih piece hp
      · rw [if_neg h] at hp
        rcases hr : splitOnC sep rest with _ | ⟨p, t⟩
        · exact absurd hr (splitOnC_ne_nil sep rest)
        · rw [hr] at hp
          rcases List.mem_cons.mp hp with hp | hp
          · subst hp
            intro hmem
            rcases List.mem_cons.mp hmem with hmem | hmem
            · exact h hmem.symm
            · exact ih p (by rw [hr]; exact List.mem_cons_self p t) hmem
          · exact ih piece (by rw [hr]; exact List.mem_cons_of_mem p hp)

theorem splitOnC_no_sep (sep : Char) (l : List Char) (h : sep ∉ l) :
    splitOnC sep l = [l] := by
  induction l with
  | nil => simp [splitOnC]
  | cons c rest ih =>
      have hc : c ≠ sep := fun hc => h (hc ▸ List.mem_cons_self c rest)
      have hrest : sep ∉ rest := fun hm => h (List.mem_cons_of_mem c hm)
      simp only [splitOnC, if_neg (fun hh => hc hh), ih hrest]

theorem splitOnC_append_cons (sep : Char) (l X : List Char) (h : sep ∉ l) :
    splitOnC sep (l ++ sep :: X) = l :: splitOnC sep X := by
  induction l with
  | nil => simp [splitOnC]
  | cons c rest ih =>
      have hc : c ≠ sep := fun hc => h (hc ▸ List.mem_cons_self c rest)
      have hrest : sep ∉ rest := fun hm => h (List.mem_cons_of_mem c hm)
      simp only [List.cons_append, splitOnC, if_neg (fun hh => hc hh), List.append_eq]
      rw [ih hrest]

theorem splitOnC_joinC (sep : Char) (lss : List (List Char))
    (h : ∀ l ∈ lss, sep ∉ l) (hne : lss ≠ []) :
    splitOnC sep (joinC sep lss) = lss := by
  induction lss with
  | nil => exact absurd rfl hne
  | cons l rest ih =>
      rcases rest with _ | ⟨l2, rest2⟩
      · simp only [joinC]
        exact splitOnC_no_sep sep l (h l (List.mem_cons_self l []))
      · simp only [joinC]
        rw [splitOnC_append_cons sep l (joinC sep (l2 :: rest2))
            (h l (List.mem_cons_self _ _))]
        rw [ih (fun x hx => h x (List.mem_cons_of_mem l hx)) (by simp)]

theorem linesOf_newline_free (s : String) : ∀ l ∈ linesOf s, '\n' ∉ l.data := by
  intro l hl
  simp only [linesOf, splitStr, List.mem_map] at hl
  obtain ⟨cs, hcs, rfl⟩ := hl
  exact mem_splitOnC '\n' s.data cs hcs

theorem linesOf_unlines (ls : List String) (h : ∀ l ∈ ls, '\n' ∉ l.data)
    (hne : ls ≠ []) : linesOf (unlines ls) = ls := by
  simp only [linesOf, unlines, splitStr]
  rw [splitOnC_joinC '\n' (ls.map String.data)
      (by intro l hl
          simp only [List.mem_map] at hl
          obtain ⟨x, hx, rfl⟩ := hl
          exact h x hx)
      (by simpa using hne)]
  rw [List.map_map]
  have : (fun cs : List Char => (⟨cs⟩ : String)) ∘ String.data = id := by
    funext x; rfl
  rw [this, List.map_id]


/-- C9: the regex-suppression step with no compiled regex (absent, empty,
or invalid pattern caught by the `try`/`catch`) leaves the text unchanged
and the whole pipeline behaves as if the step were removed; with a
successfully compiled regex, exactly the matching lines are dropped,
regardless of which resource block they belong to. -/
theorem c9_regex_suppression :
    (∀ s : String, suppressRegexFilter s none = s) ∧
    (∀ (s : String) (test : String → Bool),
        (linesOf s).filter (fun l => !(test l)) ≠ [] →
        linesOf (suppressRegexFilter s (some test)) =
          (linesOf s).filter (fun l => !(test l))) ∧
    (∀ (diff : String) (il : Bool) (kinds : List String) (mode : String),
        processDiff diff il kinds none mode =
          applySecretHandling
            (suppressKindsFilter (if il ∧ diff ≠ "" then ignoreLabelsFilter diff else diff)
              kinds) mode) := by
  refine ⟨fun s => rfl, ?_, fun diff il kinds mode => rfl⟩
  intro s test hne
  exact linesOf_unlines _
    (fun l hl => linesOf_newline_free s l (List.mem_of_mem_filter hl)) hne

/-- Witness for C9 at a concrete text and predicate. -/
theorem c9_witness :
    (linesOf "keep\ndrop").filter (fun l => !((fun l : String => l == "drop") l)) ≠ [] ∧
    linesOf (suppressRegexFilter "keep\ndrop" (some (fun l => l == "drop"))) =
      (linesOf "keep\ndrop").filter (fun l => !((fun l : String => l == "drop") l)) :=
  ⟨by decide, c9_regex_suppression.2.1 "keep\ndrop" (fun l => l == "drop") (by decide)⟩

/-- C7: the computed impact level is `"high"` exactly when removed
resources are positive OR a breaking change was found OR strictly more
than 5 critical changes were found; otherwise `"medium"` exactly when
modified resources are positive OR a critical change was found; otherwise
`"low"`.  (Stated over the reported `impact` lists; the 10-element
truncation preserves non-emptiness and the `> 5` threshold.) -/
theorem c7_impact_level (rs : List ResourceDiff) (text : String) :
    ((calculateStatistics rs text).impact.level = "high" ↔
      (0 < (calculateStatistics rs text).summary.resourcesRemoved ∨
       (calculateStatistics rs text).impact.breakingChanges ≠ [] ∨
       5 < (calculateStatistics rs text).impact.criticalChanges.length)) ∧
    ((calculateStatistics rs text).impact.level = "medium" ↔
      (¬ (0 < (calculateStatistics rs text).summary.resourcesRemoved ∨
          (calculateStatistics rs text).impact.breakingChanges ≠ [] ∨
          5 < (calculateStatistics rs text).impact.criticalChanges.length) ∧
       (0 < (calculateStatistics rs text).summary.resourcesModified ∨
        (calculateStatistics rs text).impact.criticalChanges ≠ []))) ∧
    ((calculateStatistics rs text).impact.level = "low" ↔
      (¬ (0 < (calculateStatistics rs text).summary.resourcesRemoved ∨
          (calculateStatistics rs text).impact.breakingChanges ≠ [] ∨
          5 < (calculateStatistics rs text).impact.criticalChanges.length) ∧
       ¬ (0 < (calculateStatistics rs text).summary.resourcesModified ∨
          (calculateStatistics rs text).impact.criticalChanges ≠ []))) := by
  simp only [calculateStatistics]
  set a := rs.foldl processResource emptyStatAcc with ha
  have hbrk : (a.brk.take 10 ≠ ([] : List BreakingChange)) ↔ a.brk ≠ [] := by
    rw [ne_eq, List.take_eq_nil_iff]; simp
  have hcrit5 : (5 < (a.crit.take 10).length) ↔ 5 < a.crit.length := by
    rw [List.length_take]; omega
  have hcritne : (a.crit.take 10 ≠ ([] : List CriticalChange)) ↔ a.crit ≠ [] := by
    rw [ne_eq, List.take_eq_nil_iff]; simp
  have hbrklen : (0 < a.brk.length) ↔ a.brk ≠ [] := List.length_pos
  have hcritlen : (0 < a.crit.length) ↔ a.crit ≠ [] := List.length_pos
  by_cases h1 : a.resourcesRemoved > 0 ∨ a.brk.length > 0 ∨ a.crit.length > 5
  · rw [if_pos h1]
    have hc : 0 < a.resourcesRemoved ∨ a.brk.take 10 ≠ [] ∨ 5 < (a.crit.take 10).length := by
      rcases h1 with h | h | h
      · exact Or.inl h
      · exact Or.inr (Or.inl (hbrk.mpr (hbrklen.mp h)))
      · exact Or.inr (Or.inr (hcrit5.mpr h))
    exact ⟨iff_of_true rfl hc,
           iff_of_false (by decide) (fun h => h.1 hc),
           iff_of_false (by decide) (fun h => h.1 hc)⟩
  · rw [if_neg h1]
    have hnc : ¬ (0 < a.resourcesRemoved ∨ a.brk.take 10 ≠ [] ∨ 5 < (a.crit.take 10).length) := by
      intro hc
      apply h1
      rcases hc with h | h | h
      · exact Or.inl h
      · exact Or.inr (Or.inl (hbrklen.mpr (hbrk.mp h)))
      · exact Or.inr (Or.inr (hcrit5.mp h))
    by_cases h2 : a.resourcesModified > 0 ∨ a.crit.length > 0
    · rw [if_pos h2]
      have hc2 : 0 < a.resourcesModified ∨ a.crit.take 10 ≠ [] := by
        rcases h2 with h | h
        · exact Or.inl h
        · exact Or.inr (hcritne.mpr (hcritlen.mp h))
      exact ⟨iff_of_false (by decide) hnc,
             iff_of_true rfl ⟨hnc, hc2⟩,
             iff_of_false (by decide) (fun h => h.2 hc2)⟩
    · rw [if_neg h2]
      have hnc2 : ¬ (0 < a.resourcesModified ∨ a.crit.take 10 ≠ []) := by
        intro hc
        apply h2
        rcases hc with h | h
        · exact Or.inl h
        · exact Or.inr (hcritlen.mpr (hcritne.mp h))
      exact ⟨iff_of_false (by decide) hnc,
             iff_of_false (by decide) (fun h => hnc2 h.2),
             iff_of_true rfl ⟨hnc, hnc2⟩⟩

/-! ## C10: kind-map invariants of the statistics fold -/

/-- Every entry of the kind map satisfies the per-kind bound. -/
def kindsBound (m : List (String × KindCounts)) : Prop :=
  ∀ p ∈ m, p.2.added + p.2.removed + p.2.modified ≤ p.2.count

/-- Sum of the `count` fields of the kind map. -/
def kindsCountSum (m : List (String × KindCounts)) : Nat :=
  (m.map (fun p => p.2.count)).sum

theorem adjustKey_keys (m : List (String × KindCounts)) (k : String)
    (f : KindCounts → KindCounts) :
    (adjustKey m k f).map Prod.fst = m.map Prod.fst := by
  simp only [adjustKey, List.map_map]
  congr 1
  funext p
  by_cases h : p.1 = k <;> simp [h]

theorem adjustKey_adjustKey (m : List (String × KindCounts)) (k : String)
    (f g : KindCounts → KindCounts) :
    adjustKey (adjustKey m k f) k g = adjustKey m k (fun c => g (f c)) := by
  simp only [adjustKey, List.map_map]
  congr 1
  funext p
  by_cases h : p.1 = k <;> simp [h]

theorem kindsBound_adjustKey (m : List (String × KindCounts)) (k : String)
    (f : KindCounts → KindCounts)
    (hf : ∀ c : KindCounts, c.added + c.removed + c.modified ≤ c.count →
      (f c).added + (f c).removed + (f c).modified ≤ (f c).count)
    (h : kindsBound m) : kindsBound (adjustKey m k f) := by
  intro q hq
  simp only [adjustKey, List.mem_map] at hq
  obtain ⟨p, hp, rfl⟩ := hq
  by_cases hk : p.1 = k
  · simp only [if_pos hk]
    exact hf p.2 (h p hp)
  · simp only [if_neg hk]
    exact h p hp

theorem sum_adjustKey (m : List (String × KindCounts)) (k : String)
    (f : KindCounts → KindCounts) (hf : ∀ c, (f c).count = c.count + 1)
    (hnd : (m.map Prod.fst).Nodup) (hk : k ∈ m.map Prod.fst) :
    kindsCountSum (adjustKey m k f) = kindsCountSum m + 1 := by
  induction m with
  | nil => simp at hk
  | cons p m' ih =>
      simp only [List.map_cons, List.nodup_cons] at hnd
      by_cases hpk : p.1 = k
      · have hnotin : k ∉ m'.map Prod.fst := by rw [← hpk]; exact hnd.1
        have hid : adjustKey m' k f = m' := by
          have : ∀ q ∈ m', q.1 ≠ k := by
            intro q hq hqk
            exact hnotin (hqk ▸ List.mem_map_of_mem Prod.fst hq)
          simp only [adjustKey]
          rw [List.map_congr_left]
          · exact List.map_id _
          · intro q hq
            simp [if_neg (this q hq)]
        simp only [adjustKey, List.map_cons, if_pos hpk, kindsCountSum]
        rw [show List.map (fun p => if p.1 = k then (p.1, f p.2) else p) m' =
              adjustKey m' k f from rfl, hid]
        simp [hf p.2]
        omega
      · have hk' : k ∈ m'.map Prod.fst := by
          rcases List.mem_cons.mp hk with h | h
          · exact absurd h.symm hpk
          · exact h
        simp only [adjustKey, List.map_cons, if_neg hpk, kindsCountSum, List.sum_cons]
        have := ih hnd.2 hk'
        simp only [kindsCountSum, adjustKey] at this
        rw [this]
        omega

theorem ensureKey_keys_mem (m : List (String × KindCounts)) (k : String) :
    k ∈ (ensureKey m k).map Prod.fst := by
  simp only [ensureKey]
  by_cases h : m.any (fun p => p.1 == k)
  · rw [if_pos h]
    simp only [List.any_eq_true, beq_iff_eq] at h
    obtain ⟨p, hp, hpk⟩ := h
    exact hpk ▸ List.mem_map_of_mem Prod.fst hp
  · rw [if_neg h]
    simp

theorem ensureKey_nodup (m : List (String × KindCounts)) (k : String)
    (h : (m.map Prod.fst).Nodup) : ((ensureKey m k).map Prod.fst).Nodup := by
  simp only [ensureKey]
  by_cases hm : m.any (fun p => p.1 == k)
  · rw [if_pos hm]; exact h
  · rw [if_neg hm]
    simp only [List.map_append, List.map_cons, List.map_nil]
    rw [List.nodup_append]
    refine ⟨h, List.nodup_singleton k, ?_⟩
    intro x hx hk
    simp only [List.mem_singleton] at hk
    subst hk
    simp only [List.any_eq_true, beq_iff_eq] at hm
    simp only [List.mem_map] at hx
    obtain ⟨p, hp, hpk⟩ := hx
    exact hm ⟨p, hp, hpk⟩

theorem ensureKey_bound (m : List (String × KindCounts)) (k : String)
    (h : kindsBound m) : kindsBound (ensureKey m k) := by
  simp only [ensureKey]
  by_cases hm : m.any (fun p => p.1 == k)
  · rw [if_pos hm]; exact h
  · rw [if_neg hm]
    intro q hq
    rcases List.mem_append.mp hq with hq | hq
    · exact h q hq
    · simp only [List.mem_singleton] at hq
      subst hq
      simp

theorem ensureKey_sum (m : List (String × KindCounts)) (k : String) :
    kindsCountSum (ensureKey m k) = kindsCountSum m := by
  simp only [ensureKey]
  by_cases hm : m.any (fun p => p.1 == k)
  · rw [if_pos hm]
  · rw [if_neg hm]
    simp [kindsCountSum]

/-- The kind-map invariant carried through the statistics fold: the
per-entry bound, the count sum, and distinctness of keys. -/
def KMok (m : List (String × KindCounts)) (n : Nat) : Prop :=
  kindsBound m ∧ kindsCountSum m = n ∧ (m.map Prod.fst).Nodup

theorem adjustKey_nodup (m : List (String × KindCounts)) (k : String)
    (f : KindCounts → KindCounts) (h : (m.map Prod.fst).Nodup) :
    ((adjustKey m k f).map Prod.fst).Nodup := by
  rw [adjustKey_keys]; exact h

theorem KMok_adjust_ensure (m : List (String × KindCounts)) (k : String) (n : Nat)
    (f : KindCounts → KindCounts) (hfc : ∀ c, (f c).count = c.count + 1)
    (hfb : ∀ c : KindCounts, c.added + c.removed + c.modified ≤ c.count →
      (f c).added + (f c).removed + (f c).modified ≤ (f c).count)
    (h : KMok m n) : KMok (adjustKey (ensureKey m k) k f) (n + 1) := by
  obtain ⟨hb, hs, hnd⟩ := h
  refine ⟨kindsBound_adjustKey _ k f hfb (ensureKey_bound m k hb), ?_,
          adjustKey_nodup _ k f (ensureKey_nodup m k hnd)⟩
  rw [sum_adjustKey _ k f hfc (ensureKey_nodup m k hnd) (ensureKey_keys_mem m k),
      ensureKey_sum, hs]

theorem processResource_kindMap_eq (a : StatAcc) (r : ResourceDiff) :
    (processResource a r).kindMap =
      (if (r.lines.foldl (scanLine (resourceKeyOf r) r.kind r.path)
            ⟨0, 0, 0, false, false, [], []⟩).hasAdd ∧
          (r.lines.foldl (scanLine (resourceKeyOf r) r.kind r.path)
            ⟨0, 0, 0, false, false, [], []⟩).hasRem then
         adjustKey (adjustKey (ensureKey a.kindMap r.kind) r.kind
             (fun c => { c with count := c.count + 1 })) r.kind
           (fun c => { c with modified := c.modified + 1 })
       else if (r.lines.foldl (scanLine (resourceKeyOf r) r.kind r.path)
            ⟨0, 0, 0, false, false, [], []⟩).hasAdd ∧
          ¬ (r.lines.foldl (scanLine (resourceKeyOf r) r.kind r.path)
            ⟨0, 0, 0, false, false, [], []⟩).hasRem then
         adjustKey (adjustKey (ensureKey a.kindMap r.kind) r.kind
             (fun c => { c with count := c.count + 1 })) r.kind
           (fun c => { c with added := c.added + 1 })
       else if (r.lines.foldl (scanLine (resourceKeyOf r) r.kind r.path)
            ⟨0, 0, 0, false, false, [], []⟩).hasRem ∧
          ¬ (r.lines.foldl (scanLine (resourceKeyOf r) r.kind r.path)
            ⟨0, 0, 0, false, false, [], []⟩).hasAdd then
         adjustKey (adjustKey (ensureKey a.kindMap r.kind) r.kind
             (fun c => { c with count := c.count + 1 })) r.kind
           (fun c => { c with removed := c.removed + 1 })
       else
         adjustKey (ensureKey a.kindMap r.kind) r.kind
           (fun c => { c with count := c.count + 1 })) := by
  simp only [processResource]
  repeat' split
  all_goals simp_all

theorem processResource_KMok (a : StatAcc) (r : ResourceDiff) (n : Nat)
    (h : KMok a.kindMap n) : KMok (processResource a r).kindMap (n + 1) := by
  rw [processResource_kindMap_eq]
  split
  · rw [adjustKey_adjustKey]
    exact KMok_adjust_ensure a.kindMap r.kind n _ (fun c => rfl)
      (fun c hc => by simp; omega) h
  · split
    · rw [adjustKey_adjustKey]
      exact KMok_adjust_ensure a.kindMap r.kind n _ (fun c => rfl)
        (fun c hc => by simp; omega) h
    · split
      · rw [adjustKey_adjustKey]
        exact KMok_adjust_ensure a.kindMap r.kind n _ (fun c => rfl)
          (fun c hc => by simp; omega) h
      · exact KMok_adjust_ensure a.kindMap r.kind n _ (fun c => rfl)
          (fun c hc => by simp; omega) h

theorem foldl_KMok (rs : List ResourceDiff) (a : StatAcc) (n : Nat)
    (h : KMok a.kindMap n) :
    KMok ((rs.foldl processResource a).kindMap) (n + rs.length) := by
  induction rs generalizing a n with
  | nil => simpa using h
  | cons r rest ih =>
      simp only [List.foldl_cons, List.length_cons]
      have heq : n + (rest.length + 1) = (n + 1) + rest.length := by omega
      rw [heq]
      exact ih (processResource a r) (n + 1) (processResource_KMok a r n h)

theorem insertDescBy_perm {α : Type} (key : α → Nat) (x : α) (l : List α) :
    (insertDescBy key x l).Perm (x :: l) := by
  induction l with
  | nil => simp [insertDescBy]
  | cons y ys ih =>
      simp only [insertDescBy]
      by_cases h : key y ≤ key x
      · rw [if_pos h]
      · rw [if_neg h]
        exact (ih.cons y).trans (List.Perm.swap x y ys)

theorem sortDescBy_perm {α : Type} (key : α → Nat) (l : List α) :
    (sortDescBy key l).Perm l := by
  induction l with
  | nil => simp [sortDescBy]
  | cons x xs ih =>
      simp only [sortDescBy]
      exact (insertDescBy_perm key x (sortDescBy key xs)).trans (ih.cons x)

/-- C10: in the statistics output, every `byKind` entry satisfies
`added + removed + modified ≤ count`, and the counts over all `byKind`
entries sum to `summary.totalChanges` (the number of processed groups). -/
theorem c10_bykind_consistency (rs : List ResourceDiff) (text : String) :
    (∀ e ∈ (calculateStatistics rs text).byKind,
        e.added + e.removed + e.modified ≤ e.count) ∧
    ((calculateStatistics rs text).byKind.map ResourceStats.count).sum =
      (calculateStatistics rs text).summary.totalChanges := by
  have hkm : KMok ((rs.foldl processResource emptyStatAcc).kindMap) rs.length := by
    have := foldl_KMok rs emptyStatAcc 0 ⟨by intro p hp; simp [emptyStatAcc] at hp,
       by simp [emptyStatAcc, kindsCountSum], by simp [emptyStatAcc]⟩
    simpa using this
  simp only [calculateStatistics]
  set a := rs.foldl processResource emptyStatAcc with ha
  set mapped := a.kindMap.map
      (fun p => ResourceStats.mk p.1 p.2.count p.2.added p.2.removed p.2.modified) with hmapped
  have hperm : (sortDescBy (fun s => s.count) mapped).Perm mapped :=
    sortDescBy_perm _ _
  constructor
  · intro e he
    have hmem : e ∈ mapped := hperm.mem_iff.mp he
    rw [hmapped] at hmem
    simp only [List.mem_map] at hmem
    obtain ⟨p, hp, rfl⟩ := hmem
    exact hkm.1 p hp
  · have hsum : ((sortDescBy (fun s => s.count) mapped).map ResourceStats.count).sum =
        (mapped.map ResourceStats.count).sum :=
      (hperm.map ResourceStats.count).sum_eq
    rw [hsum, hmapped, List.map_map]
    have : ResourceStats.count ∘
        (fun p : String × KindCounts =>
          ResourceStats.mk p.1 p.2.count p.2.added p.2.removed p.2.modified) =
        (fun p => p.2.count) := rfl
    rw [this]
    exact hkm.2.1

/-- Witness for C10 at the round-trip scenario input. -/
theorem c10_witness :
    ResourceStats.mk "ServiceAccount" 1 0 0 1 ∈
        (calculateStatistics (parseDiffByResources c1Raw) c1Raw).byKind ∧
    (ResourceStats.mk "ServiceAccount" 1 0 0 1).added +
        (ResourceStats.mk "ServiceAccount" 1 0 0 1).removed +
        (ResourceStats.mk "ServiceAccount" 1 0 0 1).modified ≤
      (ResourceStats.mk "ServiceAccount" 1 0 0 1).count ∧
    ((calculateStatistics (parseDiffByResources c1Raw) c1Raw).byKind.map
        ResourceStats.count).sum =
      (calculateStatistics (parseDiffByResources c1Raw) c1Raw).summary.totalChanges :=
  ⟨by decide,
   (c10_bykind_consistency (parseDiffByResources c1Raw) c1Raw).1 _ (by decide),
   (c10_bykind_consistency (parseDiffByResources c1Raw) c1Raw).2⟩

/-! ## C4: context-line trimming -/

theorem aclLoop_mem (lines : List String) (ctx : Nat) :
    ∀ (fuel i : Nat) (lc : Int) (res : List String),
      (∀ l ∈ res, l ∈ lines ∨ l = "...") →
      ∀ l ∈ aclLoop lines ctx fuel i lc res, l ∈ lines ∨ l = "..." := by
  intro fuel
  induction fuel with
  | zero =>
      intro i lc res h l hl
      simp only [aclLoop] at hl
      exact h l hl
  | succ fuel ih =>
      intro i lc res h l hl
      simp only [aclLoop] at hl
      by_cases hi : i < lines.length
      · rw [if_pos hi] at hl
        by_cases hc : (startsWithStr (jsTrim (lines.getD i "")) "+" ||
            startsWithStr (jsTrim (lines.getD i "")) "-") = true
        · rw [if_pos hc] at hl
          refine ih (i + 1) (i : Int) _ ?_ l hl
          intro x hx
          rcases List.mem_append.mp hx with hx | hx
          · by_cases hsep : (0 ≤ lc ∧ lc + 1 < ((i - ctx : Nat) : Int))
            · rw [if_pos hsep] at hx
              rcases List.mem_append.mp hx with hx | hx
              · exact h x hx
              · simp only [List.mem_singleton] at hx
                exact Or.inr hx
            · rw [if_neg hsep] at hx
              exact h x hx
          · simp only [List.mem_map, List.mem_filter] at hx
            obtain ⟨j, ⟨hj1, hj2⟩, rfl⟩ := hx
            simp only [List.mem_map, List.mem_range] at hj1
            obtain ⟨j0, hj0, rfl⟩ := hj1
            left
            have hjlt : j0 + (i - ctx) < lines.length := by
              have : min lines.length (i + ctx + 1) - (i - ctx) ≤
                  min lines.length (i + ctx + 1) := Nat.sub_le _ _
              omega
            rw [List.getD_eq_getElem lines "" hjlt]
            exact List.getElem_mem hjlt
        · rw [if_neg hc] at hl
          exact ih (i + 1) lc res h l hl
      · rw [if_neg hi] at hl
        exact h l hl

theorem aclLoop_no_change (lines : List String) (ctx : Nat)
    (hnone : ∀ l ∈ lines, (startsWithStr (jsTrim l) "+" ||
      startsWithStr (jsTrim l) "-") = false) :
    ∀ (fuel i : Nat) (lc : Int) (res : List String),
      aclLoop lines ctx fuel i lc res = res := by
  intro fuel
  induction fuel with
  | zero => intro i lc res; simp [aclLoop]
  | succ fuel ih =>
      intro i lc res
      simp only [aclLoop]
      by_cases hi : i < lines.length
      · rw [if_pos hi]
        have hmem : lines.getD i "" ∈ lines := by
          rw [List.getD_eq_getElem lines "" hi]
          exact List.getElem_mem hi
        rw [if_neg (by rw [hnone _ hmem]; simp)]
        exact ih (i + 1) lc res
      · rw [if_neg hi]

theorem aclLoop_mono (lines : List String) (ctx : Nat) :
    ∀ (fuel i : Nat) (lc : Int) (res : List String) (l : String),
      l ∈ res → l ∈ aclLoop lines ctx fuel i lc res := by
  intro fuel
  induction fuel with
  | zero => intro i lc res l hl; simpa [aclLoop] using hl
  | succ fuel ih =>
      intro i lc res l hl
      simp only [aclLoop]
      by_cases hi : i < lines.length
      · rw [if_pos hi]
        by_cases hc : (startsWithStr (jsTrim (lines.getD i "")) "+" ||
            startsWithStr (jsTrim (lines.getD i "")) "-") = true
        · rw [if_pos hc]
          refine ih (i + 1) (i : Int) _ l ?_
          refine List.mem_append.mpr (Or.inl ?_)
          by_cases hsep : (0 ≤ lc ∧ lc + 1 < ((i - ctx : Nat) : Int))
          · rw [if_pos hsep]
            exact List.mem_append.mpr (Or.inl hl)
          · rw [if_neg hsep]
            exact hl
        · rw [if_neg hc]
          exact ih (i + 1) lc res l hl
      · rw [if_neg hi]
        exact hl

theorem aclLoop_change_mem (lines : List String) (ctx : Nat) :
    ∀ (fuel i : Nat) (lc : Int) (res : List String) (k : Nat),
      i ≤ k → k < lines.length → k < i + fuel →
      (startsWithStr (jsTrim (lines.getD k "")) "+" ||
        startsWithStr (jsTrim (lines.getD k "")) "-") = true →
      lines.getD k "" ∈ aclLoop lines ctx fuel i lc res := by
  intro fuel
  induction fuel with
  | zero => intro i lc res k h1 h2 h3; omega
  | succ fuel ih =>
      intro i lc res k h1 h2 h3 hk
      simp only [aclLoop]
      have hi : i < lines.length := Nat.lt_of_le_of_lt h1 h2
      rw [if_pos hi]
      by_cases hik : k = i
      · subst hik
        rw [if_pos hk]
        apply aclLoop_mono
        refine List.mem_append.mpr (Or.inr ?_)
        simp only [List.mem_map, List.mem_filter]
        refine ⟨k, ⟨?_, ?_⟩, rfl⟩
        · simp only [List.mem_map, List.mem_range]
          refine ⟨k - (k - ctx), ?_, by omega⟩
          omega
        · simp
      · have hik' : i < k := Nat.lt_of_le_of_ne h1 (fun h => hik h.symm)
        by_cases hc : (startsWithStr (jsTrim (lines.getD i "")) "+" ||
            startsWithStr (jsTrim (lines.getD i "")) "-") = true
        · rw [if_pos hc]
          exact ih (i + 1) (i : Int) _ k hik' h2 (by omega) hk
        · rw [if_neg hc]
          exact ih (i + 1) lc res k hik' h2 (by omega) hk

/-- C4, amended: for every line sequence and every `contextLines`,
`applyContextLines` returns only input lines and `"..."` separator lines;
every changed (`+`/`-` prefixed after trimming) input line appears in the
output (possibly together with up to `contextLines` context lines around
each change, where overlapping windows may repeat a context line); and if
the group has zero changed lines the output equals the input unchanged. -/
theorem c4_context_trimming (lines : List String) (contextLines : Int) :
    (∀ l ∈ applyContextLines lines contextLines, l ∈ lines ∨ l = "...") ∧
    ((∀ l ∈ lines, (startsWithStr (jsTrim l) "+" ||
        startsWithStr (jsTrim l) "-") = false) →
      applyContextLines lines contextLines = lines) ∧
    (∀ k, k < lines.length →
      (startsWithStr (jsTrim (lines.getD k "")) "+" ||
        startsWithStr (jsTrim (lines.getD k "")) "-") = true →
      lines.getD k "" ∈ applyContextLines lines contextLines) := by
  refine ⟨?_, ?_, ?_⟩
  · intro l hl
    simp only [applyContextLines] at hl
    by_cases hneg : contextLines < 0
    · rw [if_pos hneg] at hl
      exact Or.inl hl
    · rw [if_neg hneg] at hl
      by_cases hz : (aclLoop lines contextLines.toNat lines.length 0 (-1) []).length = 0
      · rw [if_pos hz] at hl
        exact Or.inl hl
      · rw [if_neg hz] at hl
        exact aclLoop_mem lines contextLines.toNat lines.length 0 (-1) []
          (by intro x hx; simp at hx) l hl
  · intro hnone
    simp only [applyContextLines]
    by_cases hneg : contextLines < 0
    · rw [if_pos hneg]
    · rw [if_neg hneg]
      rw [aclLoop_no_change lines contextLines.toNat hnone lines.length 0 (-1) []]
      simp
  · intro k hk hchange
    simp only [applyContextLines]
    by_cases hneg : contextLines < 0
    · rw [if_pos hneg]
      rw [List.getD_eq_getElem lines "" hk]
      exact List.getElem_mem hk
    · rw [if_neg hneg]
      have hmem := aclLoop_change_mem lines contextLines.toNat lines.length 0 (-1) [] k
        (Nat.zero_le k) hk (by omega) hchange
      have hne : (aclLoop lines contextLines.toNat lines.length 0 (-1) []).length ≠ 0 := by
        intro h0
        rw [List.length_eq_zero] at h0
        rw [h0] at hmem
        exact absurd hmem (List.not_mem_nil _)
      rw [if_neg hne]
      exact hmem

/-- Witness for C4 at a concrete group and context width. -/
theorem c4_witness :
    ((startsWithStr (jsTrim "+a") "+" || startsWithStr (jsTrim "+a") "-") = true) ∧
    ("+a" : String) ∈ applyContextLines ["+a", "b"] 1 :=
  ⟨by decide, (c4_context_trimming ["+a", "b"] 1).2.2 0 (by decide) (by decide)⟩

/-! ## Trim-invariance of the parenthesis patterns

The source matches its parenthesized-identifier patterns sometimes against
a line and sometimes against its trim; a match starts with `(` and ends
with `)`, neither of which is whitespace, so edge whitespace is
irrelevant. -/

theorem takeWhile_append_all (p : Char → Bool) (l₁ l₂ : List Char)
    (h : ∀ a ∈ l₁, p a = true) :
    (l₁ ++ l₂).takeWhile p = l₁ ++ l₂.takeWhile p := by
  induction l₁ with
  | nil => simp
  | cons c t ih =>
      rw [List.cons_append, List.takeWhile_cons_of_pos (h c (List.mem_cons_self c t)),
        ih (fun a ha => h a (List.mem_cons_of_mem c ha))]
      simp

theorem takeWhile_append_stop (p : Char → Bool) (l₁ l₂ : List Char)
    (h : ∃ a ∈ l₁, p a = false) :
    (l₁ ++ l₂).takeWhile p = l₁.takeWhile p ∧
      (l₁.takeWhile p).length < l₁.length := by
  induction l₁ with
  | nil => simp at h
  | cons c t ih =>
      by_cases hc : p c
      · obtain ⟨a, ha, hpa⟩ := h
        have ht : ∃ a ∈ t, p a = false := by
          rcases List.mem_cons.mp ha with rfl | ha
          · rw [hc] at hpa; cases hpa
          · exact ⟨a, ha, hpa⟩
        obtain ⟨ih1, ih2⟩ := ih ht
        refine ⟨?_, ?_⟩
        · rw [List.cons_append, List.takeWhile_cons_of_pos hc,
            List.takeWhile_cons_of_pos hc, ih1]
        · rw [List.takeWhile_cons_of_pos hc]
          simpa using ih2
      · refine ⟨?_, ?_⟩
        · rw [List.cons_append, List.takeWhile_cons_of_neg hc,
            List.takeWhile_cons_of_neg hc]
        · rw [List.takeWhile_cons_of_neg hc]
          simp

/-- Unfolding equation of `firstParenC` at an opening parenthesis. -/
theorem firstParenC_cons_paren (rest : List Char) :
    firstParenC ('(' :: rest) =
      if (rest.takeWhile (fun d => d ≠ ')')).length ≠ 0 ∧
          (rest.takeWhile (fun d => d ≠ ')')).length < rest.length then
        some (rest.takeWhile (fun d => d ≠ ')'))
      else firstParenC rest := rfl

theorem firstParenC_cons_ne (c : Char) (rest : List Char) (h : c ≠ '(') :
    firstParenC (c :: rest) = firstParenC rest := by
  simp [firstParenC, h]

theorem firstParenC_ws_nil (ws : List Char) (h : ∀ a ∈ ws, jsWS a = true) :
    firstParenC ws = none := by
  induction ws with
  | nil => rfl
  | cons c t ih =>
      have hc : c ≠ '(' := by
        intro hc
        have := h c (List.mem_cons_self c t)
        rw [hc] at this
        simp [jsWS] at this
      rw [firstParenC_cons_ne c t hc]
      exact ih (fun a ha => h a (List.mem_cons_of_mem c ha))

theorem firstParenC_append_ws (y ws : List Char) (h : ∀ a ∈ ws, jsWS a = true) :
    firstParenC (y ++ ws) = firstParenC y := by
  induction y with
  | nil => simpa using firstParenC_ws_nil ws h
  | cons c t ih =>
      by_cases hc : c = '('
      · subst hc
        rw [List.cons_append, firstParenC_cons_paren, firstParenC_cons_paren]
        by_cases hstop : ∃ a ∈ t, (fun d => decide (d ≠ ')')) a = false
        · obtain ⟨heq, hlt⟩ := takeWhile_append_stop _ t ws hstop
          rw [heq]
          by_cases hz : (t.takeWhile (fun d => decide (d ≠ ')'))).length ≠ 0
          · rw [if_pos ⟨hz, by simp only [List.length_append]; omega⟩, if_pos ⟨hz, hlt⟩]
          · push_neg at hz
            rw [if_neg (fun hcond => hcond.1 hz), if_neg (fun hcond => hcond.1 hz)]
            exact ih
        · push_neg at hstop
          have hall : ∀ a ∈ t, (fun d => decide (d ≠ ')')) a = true := by
            intro a ha
            have := hstop a ha
            simpa using this
          have hwsall : ∀ a ∈ ws, (fun d => decide (d ≠ ')')) a = true := by
            intro a ha
            have hws := h a ha
            simp only [decide_eq_true_eq]
            intro heq
            rw [heq] at hws
            simp [jsWS] at hws
          have h1 : (t ++ ws).takeWhile (fun d => decide (d ≠ ')')) = t ++ ws :=
            List.takeWhile_eq_self_iff.mpr
              (by intro a ha
                  rcases List.mem_append.mp ha with ha | ha
                  · exact hall a ha
                  · exact hwsall a ha)
          have h2 : t.takeWhile (fun d => decide (d ≠ ')')) = t :=
            List.takeWhile_eq_self_iff.mpr hall
          rw [h1, h2]
          rw [if_neg (by intro ⟨_, hlt⟩; omega), if_neg (by intro ⟨_, hlt⟩; omega)]
          exact ih
      · rw [List.cons_append, firstParenC_cons_ne c _ hc, firstParenC_cons_ne c _ hc]
        exact ih

theorem dropWhile_all (p : Char → Bool) (l : List Char) (h : ∀ a ∈ l, p a = true) :
    l.dropWhile p = [] := by
  induction l with
  | nil => rfl
  | cons c t ih =>
      rw [List.dropWhile_cons_of_pos (h c (List.mem_cons_self c t))]
      exact ih (fun a ha => h a (List.mem_cons_of_mem c ha))

theorem firstParenC_dropWhile_ws (cs : List Char) :
    firstParenC (cs.dropWhile jsWS) = firstParenC cs := by
  induction cs with
  | nil => rfl
  | cons c t ih =>
      by_cases hc : jsWS c
      · rw [List.dropWhile_cons_of_pos hc]
        have hcp : c ≠ '(' := by
          intro h; rw [h] at hc; simp [jsWS] at hc
        rw [ih]
        simp only [firstParenC, if_neg hcp]
      · rw [List.dropWhile_cons_of_neg hc]

theorem firstParenC_trim (cs : List Char) :
    firstParenC (trimChars cs) = firstParenC cs := by
  simp only [trimChars]
  set front := cs.dropWhile jsWS with hfront
  have hdecomp : front = ((front.reverse.dropWhile jsWS).reverse) ++
      ((front.reverse.takeWhile jsWS).reverse) := by
    rw [← List.reverse_append, List.takeWhile_append_dropWhile, List.reverse_reverse]
  have hws : ∀ a ∈ (front.reverse.takeWhile jsWS).reverse, jsWS a = true := by
    intro a ha
    rw [List.mem_reverse] at ha
    exact List.mem_takeWhile_imp ha
  calc firstParenC ((front.reverse.dropWhile jsWS).reverse)
      = firstParenC (((front.reverse.dropWhile jsWS).reverse) ++
          ((front.reverse.takeWhile jsWS).reverse)) :=
        (firstParenC_append_ws _ _ hws).symm
    _ = firstParenC front := by rw [← hdecomp]
    _ = firstParenC cs := firstParenC_dropWhile_ws cs

theorem firstParenMatch_trim (l : String) : firstParenMatch (jsTrim l) = firstParenMatch l := by
  simp only [firstParenMatch, jsTrim]
  rw [firstParenC_trim]

/-- Unfolding equation of `paren3C` at an opening parenthesis. -/
theorem paren3C_cons_paren (rest : List Char) :
    paren3C ('(' :: rest) =
      ((decide ((rest.takeWhile (fun d => d ≠ ')')).length < rest.length) &&
        slashSplitOK (rest.takeWhile (fun d => d ≠ ')'))) || paren3C rest) := rfl

theorem paren3C_cons_ne (c : Char) (rest : List Char) (h : c ≠ '(') :
    paren3C (c :: rest) = paren3C rest := by
  simp [paren3C, h]

theorem paren3C_ws_nil (ws : List Char) (h : ∀ a ∈ ws, jsWS a = true) :
    paren3C ws = false := by
  induction ws with
  | nil => rfl
  | cons c t ih =>
      have hc : c ≠ '(' := by
        intro hc
        have := h c (List.mem_cons_self c t)
        rw [hc] at this
        simp [jsWS] at this
      rw [paren3C_cons_ne c t hc]
      exact ih (fun a ha => h a (List.mem_cons_of_mem c ha))

theorem paren3C_append_ws (y ws : List Char) (h : ∀ a ∈ ws, jsWS a = true) :
    paren3C (y ++ ws) = paren3C y := by
  induction y with
  | nil => simpa using paren3C_ws_nil ws h
  | cons c t ih =>
      by_cases hc : c = '('
      · subst hc
        rw [List.cons_append, paren3C_cons_paren, paren3C_cons_paren]
        by_cases hstop : ∃ a ∈ t, (fun d => decide (d ≠ ')')) a = false
        · obtain ⟨heq, hlt⟩ := takeWhile_append_stop _ t ws hstop
          rw [heq, ih]
          have d1 : decide ((t.takeWhile (fun d => decide (d ≠ ')'))).length <
              (t ++ ws).length) = true :=
            decide_eq_true (by simp only [List.length_append]; omega)
          have d2 : decide ((t.takeWhile (fun d => decide (d ≠ ')'))).length <
              t.length) = true := decide_eq_true hlt
          rw [d1, d2]
        · push_neg at hstop
          have hall : ∀ a ∈ t, (fun d => decide (d ≠ ')')) a = true := by
            intro a ha
            have := hstop a ha
            simpa using this
          have hwsall : ∀ a ∈ ws, (fun d => decide (d ≠ ')')) a = true := by
            intro a ha
            have hws := h a ha
            simp only [decide_eq_true_eq]
            intro heq
            rw [heq] at hws
            simp [jsWS] at hws
          have h1 : (t ++ ws).takeWhile (fun d => decide (d ≠ ')')) = t ++ ws :=
            List.takeWhile_eq_self_iff.mpr
              (by intro a ha
                  rcases List.mem_append.mp ha with ha | ha
                  · exact hall a ha
                  · exact hwsall a ha)
          have h2 : t.takeWhile (fun d => decide (d ≠ ')')) = t :=
            List.takeWhile_eq_self_iff.mpr hall
          rw [h1, h2, decide_eq_false (lt_irrefl (t ++ ws).length),
            decide_eq_false (lt_irrefl t.length)]
          simp only [Bool.false_and, Bool.false_or]
          exact ih
      · rw [List.cons_append, paren3C_cons_ne c _ hc, paren3C_cons_ne c _ hc]
        exact ih

theorem paren3C_dropWhile_ws (cs : List Char) :
    paren3C (cs.dropWhile jsWS) = paren3C cs := by
  induction cs with
  | nil => rfl
  | cons c t ih =>
      by_cases hc : jsWS c
      · rw [List.dropWhile_cons_of_pos hc]
        have hcp : c ≠ '(' := by
          intro h; rw [h] at hc; simp [jsWS] at hc
        rw [ih, paren3C_cons_ne c t hcp]
      · rw [List.dropWhile_cons_of_neg hc]

theorem paren3C_trim (cs : List Char) : paren3C (trimChars cs) = paren3C cs := by
  simp only [trimChars]
  set front := cs.dropWhile jsWS with hfront
  have hdecomp : front = ((front.reverse.dropWhile jsWS).reverse) ++
      ((front.reverse.takeWhile jsWS).reverse) := by
    rw [← List.reverse_append, List.takeWhile_append_dropWhile, List.reverse_reverse]
  have hws : ∀ a ∈ (front.reverse.takeWhile jsWS).reverse, jsWS a = true := by
    intro a ha
    rw [List.mem_reverse] at ha
    exact List.mem_takeWhile_imp ha
  calc paren3C ((front.reverse.dropWhile jsWS).reverse)
      = paren3C (((front.reverse.dropWhile jsWS).reverse) ++
          ((front.reverse.takeWhile jsWS).reverse)) := (paren3C_append_ws _ _ hws).symm
    _ = paren3C front := by rw [← hdecomp]
    _ = paren3C cs := paren3C_dropWhile_ws cs

theorem paren3_trim (l : String) : paren3 (jsTrim l) = paren3 l := by
  simp only [paren3, jsTrim]
  exact paren3C_trim l.data

/-! ## Segmentation invariants -/

/-- When a group's first line carries a parenthesized identifier, the
group's kind, name and (normalized) namespace were parsed from it; and the
group's namespace is never the empty string. -/
def headerDetermined (r : ResourceDiff) : Prop :=
  r.ns ≠ some "" ∧
  ∀ hd, r.lines.head? = some hd →
    ∀ c, firstParenMatch (jsTrim hd) = some c →
      r.kind = (parseResourceId c).1 ∧ r.name = (parseResourceId c).2.1 ∧
      r.ns = normalizeNs (parseResourceId c).2.2

/-- Groups delivered by segmentation: all lines come from the input text
and the header determines the identity fields. -/
def GoodRes (L : List String) (r : ResourceDiff) : Prop :=
  (∀ l ∈ r.lines, l ∈ L) ∧ headerDetermined r

theorem normalizeNs_ne_empty (x : Option String) : normalizeNs x ≠ some "" := by
  simp only [normalizeNs]
  split
  · simp
  · rename_i h
    push_neg at h
    exact h.2

theorem normalizeNs_ne_default (x : Option String) : normalizeNs x ≠ some "default" := by
  simp only [normalizeNs]
  split
  · simp
  · rename_i h
    push_neg at h
    exact h.1

theorem head?_append_ne {α : Type} (l₁ l₂ : List α) (h : l₁ ≠ []) :
    (l₁ ++ l₂).head? = l₁.head? := by
  cases l₁ with
  | nil => exact absurd rfl h
  | cons a t => rfl

theorem mkDyffResource_headerDetermined (line : String)
    (hsome : (firstParenMatch (jsTrim line)).isSome = true) :
    headerDetermined { mkDyffResource (jsTrim line) with lines := [line] } ∧
    (mkDyffResource (jsTrim line)).ns ≠ some "" := by
  obtain ⟨content, hc⟩ := Option.isSome_iff_exists.mp hsome
  have hmk : mkDyffResource (jsTrim line) =
      { category := categorizeChange (jsTrim ((splitStr (jsTrim line) '(').getD 0 ""))
          (parseResourceId content).1
        path := jsTrim ((splitStr (jsTrim line) '(').getD 0 "")
        kind := (parseResourceId content).1
        name := (parseResourceId content).2.1
        ns := normalizeNs (parseResourceId content).2.2
        lines := [] } := by
    simp only [mkDyffResource, hc]
  refine ⟨⟨?_, ?_⟩, ?_⟩
  · rw [hmk]
    exact normalizeNs_ne_empty _
  · intro hd hhd c hcm
    simp only [List.head?_cons, Option.some_inj] at hhd
    subst hhd
    rw [hc] at hcm
    injection hcm with hcm
    subst hcm
    rw [hmk]
    exact ⟨rfl, rfl, rfl⟩
  · rw [hmk]
    exact normalizeNs_ne_empty _

theorem flushGroup_good (L : List String) (cur : Option ResourceDiff)
    (sect : List String) (acc : List ResourceDiff)
    (hsect : ∀ l ∈ sect, l ∈ L)
    (hacc : ∀ r ∈ acc, GoodRes L r)
    (hcur : ∀ r, cur = some r → r.ns ≠ some "" ∧
      (∀ hd, sect.head? = some hd → ∀ c, firstParenMatch (jsTrim hd) = some c →
        r.kind = (parseResourceId c).1 ∧ r.name = (parseResourceId c).2.1 ∧
        r.ns = normalizeNs (parseResourceId c).2.2)) :
    ∀ r ∈ flushGroup cur sect acc, GoodRes L r := by
  intro r hr
  match cur with
  | none => exact hacc r hr
  | some r0 =>
      simp only [flushGroup] at hr
      by_cases hlen : sect.length > 0
      · rw [if_pos hlen] at hr
        rcases List.mem_append.mp hr with hr | hr
        · exact hacc r hr
        · simp only [List.mem_singleton] at hr
          subst hr
          obtain ⟨hns, hhd⟩ := hcur r0 rfl
          exact ⟨hsect, hns, hhd⟩
      · rw [if_neg hlen] at hr
        exact hacc r hr

theorem dyffScan_good (L : List String) :
    ∀ (input : List String) (cur : Option ResourceDiff) (sect : List String)
      (acc : List ResourceDiff),
      (∀ l ∈ input, l ∈ L) → (∀ l ∈ sect, l ∈ L) →
      (∀ r ∈ acc, GoodRes L r) →
      (∀ r, cur = some r → sect ≠ [] ∧ r.ns ≠ some "" ∧
        (∀ hd, sect.head? = some hd → ∀ c, firstParenMatch (jsTrim hd) = some c →
          r.kind = (parseResourceId c).1 ∧ r.name = (parseResourceId c).2.1 ∧
          r.ns = normalizeNs (parseResourceId c).2.2)) →
      (cur = none → sect = []) →
      ∀ r ∈ dyffScan input cur sect acc, GoodRes L r := by
  intro input
  induction input with
  | nil =>
      intro cur sect acc hin hsect hacc hcur hnone r hr
      simp only [dyffScan] at hr
      exact flushGroup_good L cur sect acc hsect hacc
        (fun r0 h => ⟨(hcur r0 h).2.1, (hcur r0 h).2.2⟩) r hr
  | cons line rest ih =>
      intro cur sect acc hin hsect hacc hcur hnone r hr
      have hinrest : ∀ l ∈ rest, l ∈ L := fun l hl => hin l (List.mem_cons_of_mem line hl)
      have hline : line ∈ L := hin line (List.mem_cons_self line rest)
      have hflush : ∀ r1 ∈ flushGroup cur sect acc, GoodRes L r1 :=
        flushGroup_good L cur sect acc hsect hacc
          (fun r0 h => ⟨(hcur r0 h).2.1, (hcur r0 h).2.2⟩)
      have hsect1 : ∀ l ∈ [line], l ∈ L := by
        intro l hl
        simp only [List.mem_singleton] at hl
        subst hl
        exact hline
      have hsectapp : ∀ l ∈ sect ++ [line], l ∈ L := by
        intro l hl
        rcases List.mem_append.mp hl with hl | hl
        · exact hsect l hl
        · exact hsect1 l hl
      rcases cur with _ | r0
      · -- currentResource = null
        have hsnil : sect = [] := hnone rfl
        subst hsnil
        simp only [dyffScan] at hr
        by_cases hm : (firstParenMatch (jsTrim line)).isSome = true
        · rw [if_pos hm] at hr
          refine ih (some (mkDyffResource (jsTrim line))) [line] (flushGroup none [] acc)
            hinrest hsect1 hflush ?_ (by intro h; cases h) r hr
          intro r1 h1
          injection h1 with h1
          subst h1
          obtain ⟨hdet, hns⟩ := mkDyffResource_headerDetermined line hm
          exact ⟨by simp, hns, hdet.2⟩
        · rw [if_neg hm] at hr
          by_cases hpl : (startsWithStr (jsTrim line) "+++" ||
              startsWithStr (jsTrim line) "---") = true
          · rw [if_pos hpl] at hr
            refine ih (some _) ([] ++ [line]) acc hinrest (by simpa using hsect1) hacc ?_
              (by intro h; cases h) r hr
            intro r1 h1
            injection h1 with h1
            subst h1
            refine ⟨by simp, by simp, ?_⟩
            intro hd hhd c hcm
            simp only [List.nil_append, List.head?_cons, Option.some_inj] at hhd
            subst hhd
            rw [hcm] at hm
            simp at hm
          · rw [if_neg hpl] at hr
            exact ih none [] acc hinrest (by intro l hl; simp at hl) hacc
              (by intro r1 h; cases h) (fun _ => rfl) r hr
      · -- currentResource = some r0
        obtain ⟨hsne, hns0, hhd0⟩ := hcur r0 rfl
        simp only [dyffScan] at hr
        by_cases hm : (firstParenMatch (jsTrim line)).isSome = true
        · rw [if_pos hm] at hr
          refine ih (some (mkDyffResource (jsTrim line))) [line]
            (flushGroup (some r0) sect acc) hinrest hsect1 hflush ?_
            (by intro h; cases h) r hr
          intro r1 h1
          injection h1 with h1
          subst h1
          obtain ⟨hdet, hns⟩ := mkDyffResource_headerDetermined line hm
          exact ⟨by simp, hns, hdet.2⟩
        · rw [if_neg hm] at hr
          have hcurApp : ∀ (r1 : ResourceDiff), some r0 = some r1 →
              sect ++ [line] ≠ [] ∧ r1.ns ≠ some "" ∧
              (∀ hd, (sect ++ [line]).head? = some hd →
                ∀ c, firstParenMatch (jsTrim hd) = some c →
                  r1.kind = (parseResourceId c).1 ∧ r1.name = (parseResourceId c).2.1 ∧
                  r1.ns = normalizeNs (parseResourceId c).2.2) := by
            intro r1 h1
            injection h1 with h1
            subst h1
            refine ⟨by simp, hns0, ?_⟩
            rw [head?_append_ne sect [line] hsne]
            exact hhd0
          by_cases hbl : jsTrim line = "" ∧ rest ≠ []
          · rw [if_pos hbl] at hr
            by_cases hla : lookaheadNextIsResource rest = true
            · rw [if_pos hla] at hr
              refine ih none [] (acc ++ [{ r0 with lines := sect }]) hinrest
                (by intro l hl; simp at hl) ?_ (by intro r1 h; cases h) (fun _ => rfl)
                r hr
              intro r1 hr1
              rcases List.mem_append.mp hr1 with hr1 | hr1
              · exact hacc r1 hr1
              · simp only [List.mem_singleton] at hr1
                subst hr1
                exact ⟨hsect, hns0, hhd0⟩
            · rw [if_neg hla] at hr
              exact ih (some r0) (sect ++ [line]) acc hinrest hsectapp hacc hcurApp
                (by intro h; cases h) r hr
          · rw [if_neg hbl] at hr
            exact ih (some r0) (sect ++ [line]) acc hinrest hsectapp hacc hcurApp
              (by intro h; cases h) r hr

theorem flushGroup_length (cur : Option ResourceDiff) (sect : List String)
    (acc : List ResourceDiff) : acc.length ≤ (flushGroup cur sect acc).length := by
  match cur with
  | none => exact le_refl _
  | some r =>
      simp only [flushGroup]
      by_cases h : sect.length > 0
      · rw [if_pos h]; simp
      · rw [if_neg h]

theorem dyffScan_length (input : List String) :
    ∀ (cur : Option ResourceDiff) (sect : List String) (acc : List ResourceDiff),
      acc.length ≤ (dyffScan input cur sect acc).length := by
  induction input with
  | nil =>
      intro cur sect acc
      simp only [dyffScan]
      exact flushGroup_length cur sect acc
  | cons line rest ih =>
      intro cur sect acc
      rcases cur with _ | r0
      all_goals simp only [dyffScan]
      · by_cases hm : (firstParenMatch (jsTrim line)).isSome = true
        case pos =>
          rw [if_pos hm]
          exact le_trans (flushGroup_length none sect acc) (ih _ _ _)
        case neg =>
          rw [if_neg hm]
          by_cases hpl : (startsWithStr (jsTrim line) "+++" ||
              startsWithStr (jsTrim line) "---") = true
          · rw [if_pos hpl]
            exact ih _ _ _
          · rw [if_neg hpl]
            exact ih _ _ _
      · by_cases hm : (firstParenMatch (jsTrim line)).isSome = true
        case pos =>
          rw [if_pos hm]
          exact le_trans (flushGroup_length (some r0) sect acc) (ih _ _ _)
        case neg =>
          rw [if_neg hm]
          by_cases hbl : jsTrim line = "" ∧ rest ≠ []
          · rw [if_pos hbl]
            by_cases hla : lookaheadNextIsResource rest = true
            · rw [if_pos hla]
              calc acc.length ≤ (acc ++ [{ r0 with lines := sect }]).length := by simp
                _ ≤ _ := ih _ _ _
            · rw [if_neg hla]
              exact ih _ _ _
          · rw [if_neg hbl]
            exact ih _ _ _

theorem dyffScan_some_ne_nil (input : List String) :
    ∀ (r0 : ResourceDiff) (sect : List String) (acc : List ResourceDiff),
      sect ≠ [] → dyffScan input (some r0) sect acc ≠ [] := by
  induction input with
  | nil =>
      intro r0 sect acc hs
      simp only [dyffScan, flushGroup]
      rw [if_pos (by cases sect with
        | nil => exact absurd rfl hs
        | cons a t => simp)]
      simp
  | cons line rest ih =>
      intro r0 sect acc hs
      simp only [dyffScan]
      by_cases hm : (firstParenMatch (jsTrim line)).isSome = true
      · rw [if_pos hm]
        exact ih _ [line] _ (by simp)
      · rw [if_neg hm]
        by_cases hbl : jsTrim line = "" ∧ rest ≠ []
        · rw [if_pos hbl]
          by_cases hla : lookaheadNextIsResource rest = true
          · rw [if_pos hla]
            intro hnil
            have := dyffScan_length rest none [] (acc ++ [{ r0 with lines := sect }])
            rw [hnil] at this
            simp at this
          · rw [if_neg hla]
            exact ih _ _ _ (by simp)
        · rw [if_neg hbl]
          exact ih _ _ _ (by simp)

theorem dyffScan_empty_no_match (input : List String)
    (h : dyffScan input none [] [] = []) :
    ∀ l ∈ input, firstParenMatch (jsTrim l) = none := by
  induction input with
  | nil => intro l hl; simp at hl
  | cons line rest ih =>
      intro l hl
      simp only [dyffScan] at h
      by_cases hm : (firstParenMatch (jsTrim line)).isSome = true
      · rw [if_pos hm] at h
        exact absurd h (dyffScan_some_ne_nil rest _ [line] _ (by simp))
      · rw [if_neg hm] at h
        by_cases hpl : (startsWithStr (jsTrim line) "+++" ||
            startsWithStr (jsTrim line) "---") = true
        · rw [if_pos hpl] at h
          exact absurd h (dyffScan_some_ne_nil rest _ ([] ++ [line]) _ (by simp))
        · rw [if_neg hpl] at h
          rcases List.mem_cons.mp hl with rfl | hl
          · simpa using hm
          · exact ih h l hl

theorem splitSections_subset (L : List String) :
    ∀ (input cursect : List String),
      (∀ l ∈ input, l ∈ L) → (∀ l ∈ cursect, l ∈ L) →
      ∀ sect ∈ splitSections input cursect, ∀ l ∈ sect, l ∈ L := by
  intro input
  induction input with
  | nil =>
      intro cursect hin hcur sect hsect l hl
      simp only [splitSections] at hsect
      by_cases hc : cursect.length > 0
      · rw [if_pos hc] at hsect
        simp only [List.mem_singleton] at hsect
        subst hsect
        exact hcur l hl
      · rw [if_neg hc] at hsect
        simp at hsect
  | cons line rest ih =>
      intro cursect hin hcur sect hsect l hl
      have hinrest : ∀ l ∈ rest, l ∈ L := fun x hx => hin x (List.mem_cons_of_mem line hx)
      have hline : line ∈ L := hin line (List.mem_cons_self line rest)
      have happ : ∀ x ∈ cursect ++ [line], x ∈ L := by
        intro x hx
        rcases List.mem_append.mp hx with hx | hx
        · exact hcur x hx
        · simp only [List.mem_singleton] at hx
          subst hx
          exact hline
      simp only [splitSections] at hsect
      by_cases hsep : jsTrim line = "---"
      · rw [if_pos hsep] at hsect
        by_cases hc : cursect.length > 0
        · rw [if_pos hc] at hsect
          rcases List.mem_cons.mp hsect with rfl | hsect
          · exact hcur l hl
          · refine ih [line] hinrest ?_ sect hsect l hl
            intro x hx
            simp only [List.mem_singleton] at hx
            subst hx
            exact hline
        · rw [if_neg hc] at hsect
          exact ih (cursect ++ [line]) hinrest happ sect hsect l hl
      · rw [if_neg hsep] at hsect
        exact ih (cursect ++ [line]) hinrest happ sect hsect l hl

theorem head?_mem {α : Type} (l : List α) (a : α) (h : l.head? = some a) : a ∈ l := by
  cases l with
  | nil => cases h
  | cons x t =>
      simp only [List.head?_cons, Option.some_inj] at h
      subst h
      exact List.mem_cons_self x t

theorem parseDiffByResources_good (diff : String) :
    ∀ r ∈ parseDiffByResources diff, GoodRes (linesOf diff) r := by
  intro r hr
  simp only [parseDiffByResources] at hr
  by_cases hlen : (dyffScan (linesOf diff) none [] []).length > 0
  · rw [if_pos hlen] at hr
    exact dyffScan_good (linesOf diff) (linesOf diff) none [] []
      (fun l hl => hl) (by intro l hl; simp at hl) (by intro r1 h; simp at h)
      (by intro r1 h; cases h) (fun _ => rfl) r hr
  · rw [if_neg hlen] at hr
    have hempty : dyffScan (linesOf diff) none [] [] = [] := by
      rcases h : dyffScan (linesOf diff) none [] [] with _ | ⟨a, t⟩
      · rfl
      · rw [h] at hlen; simp at hlen
    have hnm : ∀ l ∈ linesOf diff, firstParenMatch (jsTrim l) = none :=
      dyffScan_empty_no_match (linesOf diff) hempty
    by_cases h2 : (fallbackResources (splitSections (linesOf diff) [])).length = 0
    · rw [if_pos h2] at hr
      simp only [List.mem_singleton] at hr
      subst hr
      refine ⟨fun l hl => hl, by simp, ?_⟩
      intro hd hhd c hcm
      have hmem : hd ∈ linesOf diff := head?_mem _ hd hhd
      rw [hnm hd hmem] at hcm
      cases hcm
    · rw [if_neg h2] at hr
      simp only [fallbackResources, List.mem_filterMap] at hr
      obtain ⟨sect, hsectmem, hmk⟩ := hr
      have hsectsub : ∀ l ∈ sect, l ∈ linesOf diff :=
        splitSections_subset (linesOf diff) (linesOf diff) [] (fun l hl => hl)
          (by intro l hl; simp at hl) sect hsectmem
      by_cases hblank : sect.all (fun l => jsTrim l == "") = true
      · rw [if_pos hblank] at hmk
        cases hmk
      · rw [if_neg hblank] at hmk
        rcases hef : extractFields sect "" "" "" with ⟨k, n, ns⟩
        rw [hef] at hmk
        by_cases hk : k ≠ ""
        · rw [if_pos hk] at hmk
          injection hmk with hmk
          subst hmk
          refine ⟨hsectsub, ?_, ?_⟩
          · by_cases hns : ns = ""
            · simp [hns]
            · simp [hns]
          · intro hd hhd c hcm
            have hmem : hd ∈ linesOf diff := hsectsub hd (head?_mem _ hd hhd)
            rw [hnm hd hmem] at hcm
            cases hcm
        · rw [if_neg hk] at hmk
          cases hmk

/-- C5, amended: no group produced by segmentation ever has the empty
string as its namespace, and on the path-oriented route (the group's first
line carries a parenthesized identifier) a parsed namespace of `"default"`
is also normalized to absent; only fallback-route groups, whose header has
no identifier, can retain `"default"`. -/
theorem c5_namespace_rules (diff : String) :
    ∀ r ∈ parseDiffByResources diff,
      r.ns ≠ some "" ∧
      (∀ hd, r.lines.head? = some hd → (firstParenMatch (jsTrim hd)).isSome = true →
        r.ns ≠ some "default") := by
  intro r hr
  obtain ⟨hsub, hns, hdet⟩ := parseDiffByResources_good diff r hr
  refine ⟨hns, ?_⟩
  intro hd hhd hsome
  obtain ⟨c, hc⟩ := Option.isSome_iff_exists.mp hsome
  obtain ⟨-, -, hnsval⟩ := hdet hd hhd c hc
  rw [hnsval]
  exact normalizeNs_ne_default _

/-- Witness for C5 at a concrete path-oriented group. -/
theorem c5_witness :
    (({ category := "Workloads", path := "spec.x", kind := "Deployment", name := "my-app",
        ns := some "ns1", lines := ["spec.x  (v1/Deployment/ns1/my-app)"] } : ResourceDiff) ∈
      parseDiffByResources "spec.x  (v1/Deployment/ns1/my-app)") ∧
    (some "ns1" : Option String) ≠ some "" ∧
    (some "ns1" : Option String) ≠ some "default" := by
  refine ⟨by decide, ?_, ?_⟩
  · exact (c5_namespace_rules "spec.x  (v1/Deployment/ns1/my-app)"
      { category := "Workloads", path := "spec.x", kind := "Deployment", name := "my-app",
        ns := some "ns1", lines := ["spec.x  (v1/Deployment/ns1/my-app)"] } (by decide)).1
  · exact (c5_namespace_rules "spec.x  (v1/Deployment/ns1/my-app)"
      { category := "Workloads", path := "spec.x", kind := "Deployment", name := "my-app",
        ns := some "ns1", lines := ["spec.x  (v1/Deployment/ns1/my-app)"] } (by decide)).2
      "spec.x  (v1/Deployment/ns1/my-app)" (by decide) (by decide)

theorem suppressKindsScan_subset :
    ∀ (input : List String) (skip : Bool) (kinds : List String),
      ∀ l ∈ suppressKindsScan input skip kinds, l ∈ input := by
  intro input
  induction input with
  | nil => intro skip kinds l hl; simp [suppressKindsScan] at hl
  | cons line rest ih =>
      intro skip kinds l hl
      simp only [suppressKindsScan] at hl
      rcases List.mem_append.mp hl with hl | hl
      · by_cases hskip : (match firstParenMatch line with
            | some content =>
                kinds.any (fun sk => lowerStr (filterKindOf content) == lowerStr sk)
            | none => skip) = true
        · rw [if_pos hskip] at hl
          simp at hl
        · rw [if_neg hskip] at hl
          simp only [List.mem_singleton] at hl
          rw [hl]
          exact List.mem_cons_self line rest
      · exact List.mem_cons_of_mem line (ih _ kinds l hl)

theorem suppressKindsScan_kept :
    ∀ (input : List String) (skip : Bool) (kinds : List String),
      ∀ l ∈ suppressKindsScan input skip kinds,
        ∀ c, firstParenMatch l = some c →
          (kinds.any (fun sk => lowerStr (filterKindOf c) == lowerStr sk)) = false := by
  intro input
  induction input with
  | nil => intro skip kinds l hl; simp [suppressKindsScan] at hl
  | cons line rest ih =>
      intro skip kinds l hl c hc
      simp only [suppressKindsScan] at hl
      rcases List.mem_append.mp hl with hl | hl
      · by_cases hskip : (match firstParenMatch line with
            | some content =>
                kinds.any (fun sk => lowerStr (filterKindOf content) == lowerStr sk)
            | none => skip) = true
        · rw [if_pos hskip] at hl
          simp at hl
        · rw [if_neg hskip] at hl
          simp only [List.mem_singleton] at hl
          subst hl
          rw [hc] at hskip
          simpa using hskip
      · exact ih _ kinds l hl c hc

theorem filterKind_eq_parseKind (c : String)
    (h : (splitStr c '/').length = 3 ∨
      ((splitStr c '/').length = 4 ∧ (splitStr c '/').getD 1 "" ≠ "")) :
    filterKindOf c = (parseResourceId c).1 := by
  rcases h with h3 | ⟨h4, hne⟩
  · simp only [filterKindOf, parseResourceId, h3]
    norm_num
  · simp only [filterKindOf, parseResourceId, h4]
    norm_num
    intro hcontra
    exact absurd (by simpa [List.getD_eq_getElem?_getD] using hcontra) hne

/-! ## C6: metadata exclusivity -/

theorem splitOnC_cons_self (sep : Char) (rest : List Char) :
    splitOnC sep (sep :: rest) = [] :: splitOnC sep rest := by
  simp [splitOnC]

theorem splitOnC_cons_ne2 (sep c : Char) (rest : List Char) (h : c ≠ sep) :
    splitOnC sep (c :: rest) =
      (c :: (splitOnC sep rest).headD []) :: (splitOnC sep rest).tail := by
  simp only [splitOnC, if_neg h]
  rcases hr : splitOnC sep rest with _ | ⟨p, t⟩
  · exact absurd hr (splitOnC_ne_nil sep rest)
  · simp

theorem splitOnC_append_sep (sep : Char) (X Y : List Char) :
    splitOnC sep (X ++ sep :: Y) = splitOnC sep X ++ splitOnC sep Y := by
  induction X with
  | nil => simp [splitOnC]
  | cons c X' ih =>
      by_cases hc : c = sep
      · subst hc
        rw [List.cons_append, splitOnC_cons_self, splitOnC_cons_self, ih, List.cons_append]
      · rcases hX : splitOnC sep X' with _ | ⟨p, t⟩
        · exact absurd hX (splitOnC_ne_nil sep X')
        · rw [List.cons_append, splitOnC_cons_ne2 sep c _ hc,
            splitOnC_cons_ne2 sep c X' hc, ih, hX]
          simp

theorem splitOnC_append_full (sep : Char) (X Y : List Char) :
    splitOnC sep (X ++ Y) =
      (splitOnC sep X).dropLast ++
        ((splitOnC sep X).getLastD [] ++ (splitOnC sep Y).headD []) ::
          (splitOnC sep Y).tail := by
  induction X with
  | nil =>
      rcases h : splitOnC sep Y with _ | ⟨hY, tY⟩
      · exact absurd h (splitOnC_ne_nil sep Y)
      · simp [splitOnC, h]
  | cons c X' ih =>
      rcases hX : splitOnC sep X' with _ | ⟨p, t⟩
      · exact absurd hX (splitOnC_ne_nil sep X')
      · by_cases hc : c = sep
        · subst hc
          rw [List.cons_append, splitOnC_cons_self, ih, splitOnC_cons_self, hX]
          rcases t with _ | ⟨a, t2⟩
          · simp [List.getLastD_cons]
          · simp [List.getLastD_cons]
        · rw [List.cons_append, splitOnC_cons_ne2 sep c _ hc,
            splitOnC_cons_ne2 sep c X' hc, ih, hX]
          rcases t with _ | ⟨a, t2⟩
          · simp [List.getLastD_cons]
          · simp [List.getLastD_cons]


theorem drop_length_takeWhile (p : Char → Bool) (l : List Char) :
    l.drop (l.takeWhile p).length = l.dropWhile p := by
  induction l with
  | nil => rfl
  | cons c t ih =>
      by_cases hc : p c
      · rw [List.takeWhile_cons_of_pos hc, List.dropWhile_cons_of_pos hc]
        simpa using ih
      · rw [List.takeWhile_cons_of_neg hc, List.dropWhile_cons_of_neg hc]
        rfl

theorem takeWhile_append_drop (p : Char → Bool) (l : List Char) :
    l.takeWhile p ++ l.drop (l.takeWhile p).length = l := by
  rw [drop_length_takeWhile]
  exact List.takeWhile_append_dropWhile p l

theorem splitOnC_append_nosep (sep : Char) (X y : List Char) (h : sep ∉ y) :
    splitOnC sep (X ++ y) =
      (splitOnC sep X).dropLast ++ [(splitOnC sep X).getLastD [] ++ y] := by
  rw [splitOnC_append_full, splitOnC_no_sep sep y h]
  simp

theorem isPrefixC_mono_append (sub x y : List Char) (h : isPrefixC sub x = true) :
    isPrefixC sub (x ++ y) = true := by
  induction sub generalizing x with
  | nil => simp [isPrefixC]
  | cons a as ih =>
      cases x with
      | nil => simp [isPrefixC] at h
      | cons b bs =>
          simp only [isPrefixC, Bool.and_eq_true] at h
          simp only [List.cons_append, isPrefixC, Bool.and_eq_true]
          exact ⟨h.1, ih bs h.2⟩

theorem isPrefixC_append_left (sub x y : List Char) (h : isPrefixC sub (x ++ y) = true)
    (hlen : sub.length ≤ x.length) : isPrefixC sub x = true := by
  induction sub generalizing x with
  | nil => simp [isPrefixC]
  | cons a as ih =>
      cases x with
      | nil => simp at hlen
      | cons b bs =>
          simp only [List.cons_append, isPrefixC, Bool.and_eq_true] at h
          simp only [isPrefixC, Bool.and_eq_true]
          exact ⟨h.1, ih bs h.2 (by simpa using hlen)⟩

theorem isPrefixC_append_drop (sub x y : List Char) (h : isPrefixC sub (x ++ y) = true)
    (hlen : x.length < sub.length) : isPrefixC (sub.drop x.length) y = true := by
  induction x generalizing sub with
  | nil => simpa using h
  | cons b bs ih =>
      cases sub with
      | nil => simp at hlen
      | cons a as =>
          simp only [List.cons_append, isPrefixC, Bool.and_eq_true] at h
          simpa using ih as h.2 (by simpa using hlen)

theorem containsC_nil_sub (l : List Char) : containsC l [] = true := by
  cases l with
  | nil => rfl
  | cons c t => simp [containsC, isPrefixC]

theorem containsC_append_right (a b sub : List Char) (h : containsC a sub = true) :
    containsC (a ++ b) sub = true := by
  induction a with
  | nil =>
      simp only [containsC, List.isEmpty_iff] at h
      subst h
      simpa using containsC_nil_sub b
  | cons c t ih =>
      simp only [containsC, Bool.or_eq_true] at h
      simp only [List.cons_append, containsC, Bool.or_eq_true]
      rcases h with h | h
      · exact Or.inl (by simpa using isPrefixC_mono_append sub (c :: t) b h)
      · exact Or.inr (ih h)

theorem containsC_iff (l sub : List Char) :
    containsC l sub = true ↔ ∃ i, isPrefixC sub (l.drop i) = true := by
  induction l with
  | nil =>
      simp only [containsC, List.isEmpty_iff, List.drop_nil]
      constructor
      · intro h; subst h; exact ⟨0, rfl⟩
      · intro ⟨i, hi⟩
        cases sub with
        | nil => rfl
        | cons a as => simp [isPrefixC] at hi
  | cons c t ih =>
      simp only [containsC, Bool.or_eq_true, ih]
      constructor
      · intro h
        rcases h with h | ⟨i, hi⟩
        · exact ⟨0, h⟩
        · exact ⟨i + 1, hi⟩
      · intro ⟨i, hi⟩
        cases i with
        | zero => exact Or.inl hi
        | succ j => exact Or.inr ⟨j, hi⟩

theorem containsC_append_cases (a b sub : List Char) (h : containsC (a ++ b) sub = true) :
    containsC a sub = true ∨ containsC b sub = true ∨
      ∃ k, 0 < k ∧ k < sub.length ∧ isPrefixC (sub.drop k) b = true := by
  obtain ⟨i, hi⟩ := (containsC_iff (a ++ b) sub).mp h
  by_cases hia : a.length ≤ i
  · obtain ⟨j, rfl⟩ : ∃ j, i = a.length + j := ⟨i - a.length, by omega⟩
    rw [List.drop_append] at hi
    exact Or.inr (Or.inl ((containsC_iff b sub).mpr ⟨j, hi⟩))
  · push_neg at hia
    rw [List.drop_append_of_le_length (by omega)] at hi
    by_cases hsl : sub.length ≤ (a.drop i).length
    · exact Or.inl ((containsC_iff a sub).mpr ⟨i, isPrefixC_append_left sub _ b hi hsl⟩)
    · push_neg at hsl
      refine Or.inr (Or.inr ⟨(a.drop i).length, ?_, hsl, isPrefixC_append_drop sub _ b hi hsl⟩)
      rw [List.length_drop]
      omega


theorem paren3C_append_right (x y : List Char) (h : paren3C x = true) :
    paren3C (x ++ y) = true := by
  induction x with
  | nil => simp [paren3C] at h
  | cons c t ih =>
      by_cases hc : c = '('
      · subst hc
        rw [paren3C_cons_paren] at h
        rw [List.cons_append, paren3C_cons_paren]
        rw [Bool.or_eq_true] at h
        rcases h with h1 | h1
        · rw [Bool.and_eq_true] at h1
          obtain ⟨hlt, hslash⟩ := h1
          have hlt' : (t.takeWhile (fun d => decide (d ≠ ')'))).length < t.length :=
            of_decide_eq_true hlt
          have hstop : ∃ a ∈ t, (fun d => decide (d ≠ ')')) a = false := by
            by_contra hall
            push_neg at hall
            have heq : t.takeWhile (fun d => decide (d ≠ ')')) = t :=
              List.takeWhile_eq_self_iff.mpr (fun a ha => by simpa using hall a ha)
            rw [heq] at hlt'
            exact lt_irrefl _ hlt'
          obtain ⟨heq, _⟩ := takeWhile_append_stop _ t y hstop
          rw [heq]
          have hd : decide ((t.takeWhile (fun d => decide (d ≠ ')'))).length <
              (t ++ y).length) = true :=
            decide_eq_true (by simp only [List.length_append]; omega)
          rw [hd, hslash]
          rfl
        · rw [ih h1]
          simp
      · rw [paren3C_cons_ne c t hc] at h
        rw [List.cons_append, paren3C_cons_ne c _ hc]
        exact ih h

theorem paren3C_noparen_nil (y : List Char) (h : ∀ a ∈ y, a ≠ '(') : paren3C y = false := by
  induction y with
  | nil => rfl
  | cons c t ih =>
      rw [paren3C_cons_ne c t (h c (List.mem_cons_self c t))]
      exact ih (fun a ha => h a (List.mem_cons_of_mem c ha))

theorem paren3C_append_noparen (x y : List Char)
    (hy : ∀ a ∈ y, ¬(a = '(' ∨ a = ')')) :
    paren3C (x ++ y) = paren3C x := by
  induction x with
  | nil =>
      simpa using paren3C_noparen_nil y (fun a ha h => hy a ha (Or.inl h))
  | cons c t ih =>
      by_cases hc : c = '('
      · subst hc
        rw [List.cons_append, paren3C_cons_paren, paren3C_cons_paren]
        by_cases hstop : ∃ a ∈ t, (fun d => decide (d ≠ ')')) a = false
        · obtain ⟨heq, hlt⟩ := takeWhile_append_stop _ t y hstop
          rw [heq, ih]
          have d1 : decide ((t.takeWhile (fun d => decide (d ≠ ')'))).length <
              (t ++ y).length) = true :=
            decide_eq_true (by simp only [List.length_append]; omega)
          have d2 : decide ((t.takeWhile (fun d => decide (d ≠ ')'))).length <
              t.length) = true := decide_eq_true hlt
          rw [d1, d2]
        · push_neg at hstop
          have hall : ∀ a ∈ t, (fun d => decide (d ≠ ')')) a = true := by
            intro a ha
            simpa using hstop a ha
          have hyall : ∀ a ∈ y, (fun d => decide (d ≠ ')')) a = true := by
            intro a ha
            simp only [decide_eq_true_eq]
            intro heq
            exact hy a ha (Or.inr heq)
          have h1 : (t ++ y).takeWhile (fun d => decide (d ≠ ')')) = t ++ y :=
            List.takeWhile_eq_self_iff.mpr
              (by intro a ha
                  rcases List.mem_append.mp ha with ha | ha
                  · exact hall a ha
                  · exact hyall a ha)
          have h2 : t.takeWhile (fun d => decide (d ≠ ')')) = t :=
            List.takeWhile_eq_self_iff.mpr hall
          rw [h1, h2, decide_eq_false (lt_irrefl (t ++ y).length),
            decide_eq_false (lt_irrefl t.length)]
          simp only [Bool.false_and, Bool.false_or]
          exact ih
      · rw [List.cons_append, paren3C_cons_ne c _ hc, paren3C_cons_ne c _ hc]
        exact ih

def metaStartC (cs : List Char) : Bool :=
  containsC (cs.map Char.toLower) "metadata.".data && paren3C cs

theorem metaStart_eq_metaStartC (l : String) : metaStart l = metaStartC l.data := rfl

def goodRep (rep : List Char) : Prop :=
  '\n' ∉ rep ∧ (∀ a ∈ rep, ¬(a = '(' ∨ a = ')')) ∧
    containsC (rep.map Char.toLower) "metadata.".data = false ∧
    ∀ k, k < 9 → isPrefixC ("metadata.".data.drop k) (rep.map Char.toLower) = false

def cleanPieces (cs : List Char) : Prop :=
  ∀ p ∈ splitOnC '\n' cs, metaStartC p = false

def cleanText (s : String) : Prop :=
  ∀ l ∈ linesOf s, metaStart l = false

theorem metaStartC_replace_piece (P Q rep : List Char) (hrep : goodRep rep)
    (h : metaStartC (P ++ Q) = false) : metaStartC (P ++ rep) = false := by
  obtain ⟨-, hpar, hmeta, hstrad⟩ := hrep
  by_contra hcon
  rw [Bool.not_eq_false, metaStartC, Bool.and_eq_true] at hcon
  obtain ⟨hc, hp⟩ := hcon
  have hpP : paren3C P = true := by
    rw [← paren3C_append_noparen P rep hpar]
    exact hp
  have hcP : containsC (P.map Char.toLower) "metadata.".data = true := by
    rw [List.map_append] at hc
    rcases containsC_append_cases _ _ _ hc with h1 | h1 | ⟨k, hk0, hk9, hkp⟩
    · exact h1
    · rw [hmeta] at h1; cases h1
    · have h9 : ("metadata.".data).length = 9 := by decide
      rw [h9] at hk9
      rw [hstrad k hk9] at hkp
      cases hkp
  have hPQ : metaStartC (P ++ Q) = true := by
    rw [metaStartC, Bool.and_eq_true]
    constructor
    · rw [List.map_append]
      exact containsC_append_right _ _ _ hcP
    · exact paren3C_append_right P Q hpP
  rw [h] at hPQ
  cases hPQ

theorem cleanPieces_replace (pre M rep : List Char) (hrep : goodRep rep)
    (h : cleanPieces (pre ++ M)) : cleanPieces (pre ++ rep) := by
  intro p hp
  rw [splitOnC_append_nosep '\n' pre rep hrep.1] at hp
  rcases List.mem_append.mp hp with hp | hp
  · apply h
    rw [splitOnC_append_full '\n' pre M]
    exact List.mem_append_left _ hp
  · simp only [List.mem_singleton] at hp
    subst hp
    refine metaStartC_replace_piece _ ((splitOnC '\n' M).headD []) rep hrep (h _ ?_)
    rw [splitOnC_append_full '\n' pre M]
    exact List.mem_append_right _ (List.mem_cons_self _ _)

theorem cleanPieces_append_sep (X Y : List Char) :
    cleanPieces (X ++ '\n' :: Y) ↔ cleanPieces X ∧ cleanPieces Y := by
  unfold cleanPieces
  rw [splitOnC_append_sep]
  exact List.forall_mem_append


theorem redactScanF_clean (kw : List Char) (redact : List Char → Bool) (rep : List Char)
    (hrep : goodRep rep) :
    ∀ (fuel : Nat) (cs pre : List Char), cleanPieces (pre ++ cs) →
      cleanPieces (pre ++ redactScanF kw redact rep fuel cs) := by
  intro fuel
  induction fuel with
  | zero =>
      intro cs pre h
      cases cs with
      | nil => simpa [redactScanF] using h
      | cons c rest => simpa [redactScanF] using h
  | succ fuel ih =>
      intro cs pre h
      cases cs with
      | nil => simpa [redactScanF] using h
      | cons c rest =>
          simp only [redactScanF]
          by_cases h1 : isPrefixC kw ((c :: rest).map Char.toLower) = true
          · rw [if_pos h1]
            set r := (c :: rest).drop kw.length with hr
            set w := r.takeWhile jsWS with hw
            set rest2 := r.dropWhile jsWS with hrest2
            by_cases h2 : rest2 = []
            · rw [if_pos h2]
              have hpre : pre ++ c :: rest = (pre ++ [c]) ++ rest := by simp
              rw [hpre] at h
              have hgoal : pre ++ c :: redactScanF kw redact rep fuel rest =
                  (pre ++ [c]) ++ redactScanF kw redact rep fuel rest := by simp
              rw [hgoal]
              exact ih rest (pre ++ [c]) h
            · rw [if_neg h2]
              set cap := rest2.takeWhile (fun d => d ≠ '\n') with hcap
              have e1 : cap ++ rest2.drop cap.length = rest2 := by
                rw [hcap]
                exact takeWhile_append_drop _ rest2
              have e2 : w ++ rest2 = r := by
                rw [hw, hrest2]
                exact List.takeWhile_append_dropWhile jsWS r
              have e3 : (c :: rest).take kw.length ++ r = c :: rest := by
                rw [hr]
                exact List.take_append_drop kw.length (c :: rest)
              have hsplit : (c :: rest : List Char) =
                  (c :: rest).take kw.length ++ (w ++ (cap ++ rest2.drop cap.length)) := by
                rw [e1, e2, e3]
              rw [hsplit] at h
              have hA : pre ++ ((c :: rest).take kw.length ++ (w ++ (cap ++ rest2.drop cap.length))) =
                  (pre ++ ((c :: rest).take kw.length ++ (w ++ cap))) ++ rest2.drop cap.length := by
                simp [List.append_assoc]
              rw [hA] at h
              by_cases h3 : redact cap = true
              · rw [if_pos h3]
                have hgoal : pre ++ (rep ++ redactScanF kw redact rep fuel (rest2.drop cap.length)) =
                    (pre ++ rep) ++ redactScanF kw redact rep fuel (rest2.drop cap.length) := by
                  simp [List.append_assoc]
                rw [hgoal]
                apply ih
                rcases htl : rest2.drop cap.length with _ | ⟨d, t'⟩
                · rw [htl, List.append_nil] at h
                  rw [List.append_nil]
                  exact cleanPieces_replace pre _ rep hrep h
                · have hd : d = '\n' := by
                    have hdw : rest2.dropWhile (fun d => decide (d ≠ '\n')) = d :: t' := by
                      rw [← drop_length_takeWhile (fun d => decide (d ≠ '\n')) rest2, ← hcap, htl]
                    have := dropWhile_head_false (fun d => decide (d ≠ '\n')) rest2 d t' hdw
                    simpa using this
                  subst hd
                  rw [htl] at h
                  rw [cleanPieces_append_sep] at h
                  rw [cleanPieces_append_sep]
                  exact ⟨cleanPieces_replace pre _ rep hrep h.1, h.2⟩
              · rw [if_neg h3]
                have hgoal : pre ++ ((c :: rest).take kw.length ++ w ++ cap ++
                      redactScanF kw redact rep fuel (rest2.drop cap.length)) =
                    (pre ++ ((c :: rest).take kw.length ++ (w ++ cap))) ++
                      redactScanF kw redact rep fuel (rest2.drop cap.length) := by
                  simp [List.append_assoc]
                rw [hgoal]
                exact ih _ _ h
          · rw [if_neg h1]
            have hpre : pre ++ c :: rest = (pre ++ [c]) ++ rest := by simp
            rw [hpre] at h
            have hgoal : pre ++ c :: redactScanF kw redact rep fuel rest =
                (pre ++ [c]) ++ redactScanF kw redact rep fuel rest := by simp
            rw [hgoal]
            exact ih rest (pre ++ [c]) h

theorem goodRep_data : goodRep ("data: [REDACTED]".data) :=
  ⟨by decide, by decide, by decide, by decide⟩

theorem goodRep_value : goodRep ("value: [REDACTED]".data) :=
  ⟨by decide, by decide, by decide, by decide⟩

theorem redactScan_clean (kw : List Char) (redact : List Char → Bool) (rep : List Char)
    (hrep : goodRep rep) (cs : List Char) (h : cleanPieces cs) :
    cleanPieces (redactScan kw redact rep cs) :=
  redactScanF_clean kw redact rep hrep cs.length cs [] h

theorem suppressSecrets_clean (cs : List Char) (h : cleanPieces cs) :
    cleanPieces (suppressSecrets cs) := by
  unfold suppressSecrets
  exact redactScan_clean _ _ _ goodRep_value _
    (redactScan_clean _ _ _ goodRep_data _ h)


theorem cleanText_iff_cleanPieces (s : String) : cleanText s ↔ cleanPieces s.data := by
  constructor
  · intro h p hp
    exact h ⟨p⟩ (List.mem_map_of_mem _ hp)
  · intro h l hl
    simp only [linesOf, splitStr, List.mem_map] at hl
    obtain ⟨p, hp, rfl⟩ := hl
    exact h p hp

theorem cleanText_unlines (out : List String) (hnl : ∀ l ∈ out, '\n' ∉ l.data)
    (hc : ∀ l ∈ out, metaStart l = false) : cleanText (unlines out) := by
  by_cases hne : out = []
  · subst hne
    intro l hl
    have he : linesOf (unlines ([] : List String)) = [⟨[]⟩] := rfl
    rw [he] at hl
    simp only [List.mem_singleton] at hl
    rw [hl]
    decide
  · intro l hl
    rw [linesOf_unlines out hnl hne] at hl
    exact hc l hl

theorem ignoreLabelsScan_metaStart :
    ∀ (ls : List String) (sk : Bool), ∀ l ∈ ignoreLabelsScan ls sk, metaStart l = false := by
  intro ls
  induction ls with
  | nil => intro sk l hl; simp [ignoreLabelsScan] at hl
  | cons line rest ih =>
      intro sk l hl
      simp only [ignoreLabelsScan] at hl
      split at hl
      · exact ih true l hl
      · rename_i h1
        have h1f : metaStart line = false := by simpa using h1
        split at hl
        · split at hl
          · split at hl
            · rcases List.mem_cons.mp hl with rfl | hl
              · exact h1f
              · exact ih false l hl
            · exact ih true l hl
          · split at hl
            · exact ih true l hl
            · split at hl
              · exact ih true l hl
              · split at hl
                · exact ih _ l hl
                · rcases List.mem_cons.mp hl with rfl | hl
                  · exact h1f
                  · rcases List.mem_cons.mp hl with rfl | hl
                    · exact h1f
                    · exact ih false l hl
        · rcases List.mem_cons.mp hl with rfl | hl
          · exact h1f
          · exact ih false l hl

theorem ignoreLabelsScan_subset :
    ∀ (ls : List String) (sk : Bool), ∀ l ∈ ignoreLabelsScan ls sk, l ∈ ls := by
  intro ls
  induction ls with
  | nil => intro sk l hl; simp [ignoreLabelsScan] at hl
  | cons line rest ih =>
      intro sk l hl
      simp only [ignoreLabelsScan] at hl
      split at hl
      · exact List.mem_cons_of_mem line (ih true l hl)
      · split at hl
        · split at hl
          · split at hl
            · rcases List.mem_cons.mp hl with rfl | hl
              · exact List.mem_cons_self _ _
              · exact List.mem_cons_of_mem line (ih false l hl)
            · exact List.mem_cons_of_mem line (ih true l hl)
          · split at hl
            · exact List.mem_cons_of_mem line (ih true l hl)
            · split at hl
              · exact List.mem_cons_of_mem line (ih true l hl)
              · split at hl
                · exact List.mem_cons_of_mem line (ih _ l hl)
                · rcases List.mem_cons.mp hl with rfl | hl
                  · exact List.mem_cons_self _ _
                  · rcases List.mem_cons.mp hl with rfl | hl
                    · exact List.mem_cons_self _ _
                    · exact List.mem_cons_of_mem line (ih false l hl)
        · rcases List.mem_cons.mp hl with rfl | hl
          · exact List.mem_cons_self _ _
          · exact List.mem_cons_of_mem line (ih false l hl)

theorem ignoreLabelsFilter_clean (s : String) : cleanText (ignoreLabelsFilter s) := by
  apply cleanText_unlines
  · intro l hl
    exact linesOf_newline_free s l (ignoreLabelsScan_subset _ _ l hl)
  · intro l hl
    exact ignoreLabelsScan_metaStart _ _ l hl

theorem suppressKindsFilter_clean (s : String) (kinds : List String) (h : cleanText s) :
    cleanText (suppressKindsFilter s kinds) := by
  unfold suppressKindsFilter
  split
  · apply cleanText_unlines
    · intro l hl
      exact linesOf_newline_free s l (suppressKindsScan_subset _ _ _ l hl)
    · intro l hl
      exact h l (suppressKindsScan_subset _ _ _ l hl)
  · exact h

theorem suppressRegexFilter_clean (s : String) (compiled : Option (String → Bool))
    (h : cleanText s) : cleanText (suppressRegexFilter s compiled) := by
  unfold suppressRegexFilter
  cases compiled with
  | none => exact h
  | some test =>
      apply cleanText_unlines
      · intro l hl
        exact linesOf_newline_free s l (List.mem_of_mem_filter hl)
      · intro l hl
        exact h l (List.mem_of_mem_filter hl)

theorem applySecretHandling_clean (s : String) (mode : String) (hmode : mode ≠ "decode")
    (h : cleanText s) : cleanText (applySecretHandling s mode) := by
  unfold applySecretHandling
  by_cases h1 : mode = "suppress"
  · rw [if_pos h1]
    exact (cleanText_iff_cleanPieces _).mpr
      (suppressSecrets_clean s.data ((cleanText_iff_cleanPieces s).mp h))
  · rw [if_neg h1, if_neg hmode]
    exact h

theorem processDiff_clean (diff : String) (kinds : List String)
    (regex : Option (String → Bool)) (mode : String) (hmode : mode ≠ "decode") :
    cleanText (processDiff diff true kinds regex mode) := by
  unfold processDiff
  apply applySecretHandling_clean _ _ hmode
  apply suppressRegexFilter_clean
  apply suppressKindsFilter_clean
  by_cases hd : diff = ""
  · rw [if_neg (by simp [hd])]
    subst hd
    intro l hl
    have he : linesOf "" = [⟨[]⟩] := rfl
    rw [he] at hl
    simp only [List.mem_singleton] at hl
    rw [hl]
    decide
  · rw [if_pos ⟨rfl, hd⟩]
    exact ignoreLabelsFilter_clean diff


/-- C6, amended: with `ignoreLabels = true` and any secret handling other
than `decode`, no line of the processed text, of any segmented group, or of
any rendered (context-trimmed) group contains the substring `metadata.`
(case-insensitively) together with a 3-part parenthesized resource
identifier.  (`decode` can rewrite a clean line into a violating one, as
the counterexample shows; the metadata filter itself never emits a
violating line, and the later stages only keep, drop, or cleanly rewrite
lines.) -/
theorem c6_metadata_exclusivity (diff : String) (kinds : List String)
    (regex : Option (String → Bool)) (mode : String) (hmode : mode ≠ "decode") :
    (∀ l ∈ linesOf (processDiff diff true kinds regex mode),
        ¬(containsStr (lowerStr l) "metadata." = true ∧ paren3 l = true)) ∧
    (∀ r ∈ parseDiffByResources (processDiff diff true kinds regex mode),
        ∀ l ∈ r.lines,
          ¬(containsStr (lowerStr l) "metadata." = true ∧ paren3 l = true)) ∧
    (∀ ctx : Int, ∀ r ∈ displayResources diff true kinds regex mode ctx,
        ∀ l ∈ r.lines,
          ¬(containsStr (lowerStr l) "metadata." = true ∧ paren3 l = true)) := by
  have hclean := processDiff_clean diff kinds regex mode hmode
  have hline : ∀ l ∈ linesOf (processDiff diff true kinds regex mode),
      ¬(containsStr (lowerStr l) "metadata." = true ∧ paren3 l = true) := by
    intro l hl hcon
    have hfalse := hclean l hl
    have htrue : metaStart l = true := by
      rw [metaStart, hcon.1, hcon.2]
      rfl
    rw [hfalse] at htrue
    cases htrue
  have hgroup : ∀ r ∈ parseDiffByResources (processDiff diff true kinds regex mode),
      ∀ l ∈ r.lines,
        ¬(containsStr (lowerStr l) "metadata." = true ∧ paren3 l = true) := by
    intro r hr l hl
    exact hline l ((parseDiffByResources_good _ r hr).1 l hl)
  refine ⟨hline, hgroup, ?_⟩
  intro ctx r hr l hl
  simp only [displayResources] at hr
  split at hr
  · simp at hr
  · split at hr
    · simp only [List.mem_map] at hr
      obtain ⟨r₀, hr₀, rfl⟩ := hr
      simp only at hl
      have hmem : l ∈ r₀.lines ∨ l = "..." := by
        simp only [applyContextLines] at hl
        split at hl
        · exact Or.inl hl
        · split at hl
          · exact Or.inl hl
          · exact aclLoop_mem r₀.lines ctx.toNat _ _ _ []
              (by intro x hx; simp at hx) l hl
      rcases hmem with hmem | rfl
      · exact hgroup r₀ hr₀ l hmem
      · intro hcon
        exact absurd hcon.1 (by decide)
    · exact hgroup r hr l hl

/-- Witness for C6 on a concrete diff and options. -/
theorem c6_witness :
    ("show" : String) ≠ "decode" ∧
    (∀ l ∈ linesOf (processDiff "metadata.labels.a  (v1/Pod/ns/a)\n- x\n+ y" true []
        none "show"),
      ¬(containsStr (lowerStr l) "metadata." = true ∧ paren3 l = true)) :=
  ⟨by decide,
   (c6_metadata_exclusivity "metadata.labels.a  (v1/Pod/ns/a)\n- x\n+ y" [] none "show"
      (by decide)).1⟩


/-! ## C3 over the full filter chain -/

theorem firstParenC_noclose_none (l : List Char) (h : ')' ∉ l) : firstParenC l = none := by
  induction l with
  | nil => rfl
  | cons c t ih =>
      have ht : ')' ∉ t := fun hm => h (List.mem_cons_of_mem c hm)
      by_cases hc : c = '('
      · subst hc
        rw [firstParenC_cons_paren]
        have hall : t.takeWhile (fun d => decide (d ≠ ')')) = t :=
          List.takeWhile_eq_self_iff.mpr
            (by intro a ha
                simp only [decide_eq_true_eq]
                exact fun he => ht (he ▸ ha))
        rw [hall, if_neg (by intro hcond; exact absurd hcond.2 (lt_irrefl _))]
        exact ih ht
      · rw [firstParenC_cons_ne c t hc]
        exact ih ht

theorem firstParenC_append_stable (rep : List Char)
    (hrep : ∀ a ∈ rep, ¬(a = '(' ∨ a = ')')) :
    ∀ (P Q m : List Char), firstParenC (P ++ rep) = some m →
      firstParenC (P ++ Q) = some m := by
  intro P
  induction P with
  | nil =>
      intro Q m h
      rw [List.nil_append,
        firstParenC_noclose_none rep (fun hm => hrep ')' hm (Or.inr rfl))] at h
      cases h
  | cons c P' ih =>
      intro Q m h
      by_cases hc : c = '('
      · subst hc
        rw [List.cons_append, firstParenC_cons_paren] at h
        rw [List.cons_append, firstParenC_cons_paren]
        by_cases hstop : ∃ a ∈ P', (fun d => decide (d ≠ ')')) a = false
        · obtain ⟨heq, hlt⟩ := takeWhile_append_stop _ P' rep hstop
          obtain ⟨heq2, hlt2⟩ := takeWhile_append_stop _ P' Q hstop
          rw [heq] at h
          rw [heq2]
          by_cases hz : (P'.takeWhile (fun d => decide (d ≠ ')'))).length ≠ 0
          · rw [if_pos ⟨hz, by simp only [List.length_append]; omega⟩] at h
            rw [if_pos ⟨hz, by simp only [List.length_append]; omega⟩]
            exact h
          · rw [if_neg (fun hcond => hz hcond.1)] at h
            rw [if_neg (fun hcond => hz hcond.1)]
            exact ih Q m h
        · push_neg at hstop
          have hnpP : ')' ∉ P' := by
            intro hmem
            have := hstop _ hmem
            simp at this
          have hnp : ')' ∉ P' ++ rep := by
            intro hmem
            rcases List.mem_append.mp hmem with hmem | hmem
            · exact hnpP hmem
            · exact hrep _ hmem (Or.inr rfl)
          have hall : (P' ++ rep).takeWhile (fun d => decide (d ≠ ')')) = P' ++ rep :=
            List.takeWhile_eq_self_iff.mpr
              (by intro a ha
                  simp only [decide_eq_true_eq]
                  exact fun he => hnp (he ▸ ha))
          rw [hall, if_neg (by intro hcond; exact absurd hcond.2 (lt_irrefl _)),
            firstParenC_noclose_none _ hnp] at h
          cases h
      · rw [List.cons_append, firstParenC_cons_ne c _ hc] at h
        rw [List.cons_append, firstParenC_cons_ne c _ hc]
        exact ih Q m h

def kindOkC (kinds : List String) (cs : List Char) : Prop :=
  ∀ m, firstParenC cs = some m →
    (kinds.any (fun sk => lowerStr (filterKindOf ⟨m⟩) == lowerStr sk)) = false

def kindOkPieces (kinds : List String) (cs : List Char) : Prop :=
  ∀ x ∈ splitOnC '\n' cs, kindOkC kinds x

def kindOkText (kinds : List String) (s : String) : Prop :=
  ∀ l ∈ linesOf s, ∀ c, firstParenMatch l = some c →
    (kinds.any (fun sk => lowerStr (filterKindOf c) == lowerStr sk)) = false

theorem kindOkC_replace_piece (kinds : List String) (P Q rep : List Char)
    (hrep : ∀ a ∈ rep, ¬(a = '(' ∨ a = ')'))
    (h : kindOkC kinds (P ++ Q)) : kindOkC kinds (P ++ rep) := by
  intro m hm
  exact h m (firstParenC_append_stable rep hrep P Q m hm)

theorem kindOkPieces_replace (kinds : List String) (pre M rep : List Char)
    (hnl : '\n' ∉ rep) (hrep : ∀ a ∈ rep, ¬(a = '(' ∨ a = ')'))
    (h : kindOkPieces kinds (pre ++ M)) : kindOkPieces kinds (pre ++ rep) := by
  intro p hp
  rw [splitOnC_append_nosep '\n' pre rep hnl] at hp
  rcases List.mem_append.mp hp with hp | hp
  · apply h
    rw [splitOnC_append_full '\n' pre M]
    exact List.mem_append_left _ hp
  · simp only [List.mem_singleton] at hp
    subst hp
    refine kindOkC_replace_piece kinds _ ((splitOnC '\n' M).headD []) rep hrep (h _ ?_)
    rw [splitOnC_append_full '\n' pre M]
    exact List.mem_append_right _ (List.mem_cons_self _ _)

theorem kindOkPieces_append_sep (kinds : List String) (X Y : List Char) :
    kindOkPieces kinds (X ++ '\n' :: Y) ↔ kindOkPieces kinds X ∧ kindOkPieces kinds Y := by
  unfold kindOkPieces
  rw [splitOnC_append_sep]
  exact List.forall_mem_append

theorem redactScanF_kindOk (kinds : List String) (kw : List Char)
    (redact : List Char → Bool) (rep : List Char)
    (hnl : '\n' ∉ rep) (hrep : ∀ a ∈ rep, ¬(a = '(' ∨ a = ')')) :
    ∀ (fuel : Nat) (cs pre : List Char), kindOkPieces kinds (pre ++ cs) →
      kindOkPieces kinds (pre ++ redactScanF kw redact rep fuel cs) := by
  intro fuel
  induction fuel with
  | zero =>
      intro cs pre h
      cases cs with
      | nil => simpa [redactScanF] using h
      | cons c rest => simpa [redactScanF] using h
  | succ fuel ih =>
      intro cs pre h
      cases cs with
      | nil => simpa [redactScanF] using h
      | cons c rest =>
          simp only [redactScanF]
          by_cases h1 : isPrefixC kw ((c :: rest).map Char.toLower) = true
          · rw [if_pos h1]
            set r := (c :: rest).drop kw.length with hr
            set w := r.takeWhile jsWS with hw
            set rest2 := r.dropWhile jsWS with hrest2
            by_cases h2 : rest2 = []
            · rw [if_pos h2]
              have hpre : pre ++ c :: rest = (pre ++ [c]) ++ rest := by simp
              rw [hpre] at h
              have hgoal : pre ++ c :: redactScanF kw redact rep fuel rest =
                  (pre ++ [c]) ++ redactScanF kw redact rep fuel rest := by simp
              rw [hgoal]
              exact ih rest (pre ++ [c]) h
            · rw [if_neg h2]
              set cap := rest2.takeWhile (fun d => d ≠ '\n') with hcap
              have e1 : cap ++ rest2.drop cap.length = rest2 := by
                rw [hcap]
                exact takeWhile_append_drop _ rest2
              have e2 : w ++ rest2 = r := by
                rw [hw, hrest2]
                exact List.takeWhile_append_dropWhile jsWS r
              have e3 : (c :: rest).take kw.length ++ r = c :: rest := by
                rw [hr]
                exact List.take_append_drop kw.length (c :: rest)
              have hsplit : (c :: rest : List Char) =
                  (c :: rest).take kw.length ++ (w ++ (cap ++ rest2.drop cap.length)) := by
                rw [e1, e2, e3]
              rw [hsplit] at h
              have hA : pre ++ ((c :: rest).take kw.length ++ (w ++ (cap ++ rest2.drop cap.length))) =
                  (pre ++ ((c :: rest).take kw.length ++ (w ++ cap))) ++ rest2.drop cap.length := by
                simp [List.append_assoc]
              rw [hA] at h
              by_cases h3 : redact cap = true
              · rw [if_pos h3]
                have hgoal : pre ++ (rep ++ redactScanF kw redact rep fuel (rest2.drop cap.length)) =
                    (pre ++ rep) ++ redactScanF kw redact rep fuel (rest2.drop cap.length) := by
                  simp [List.append_assoc]
                rw [hgoal]
                apply ih
                rcases htl : rest2.drop cap.length with _ | ⟨d, t'⟩
                · rw [htl, List.append_nil] at h
                  rw [List.append_nil]
                  exact kindOkPieces_replace kinds pre _ rep hnl hrep h
                · have hd : d = '\n' := by
                    have hdw : rest2.dropWhile (fun d => decide (d ≠ '\n')) = d :: t' := by
                      rw [← drop_length_takeWhile (fun d => decide (d ≠ '\n')) rest2, ← hcap, htl]
                    have := dropWhile_head_false (fun d => decide (d ≠ '\n')) rest2 d t' hdw
                    simpa using this
                  subst hd
                  rw [htl] at h
                  rw [kindOkPieces_append_sep] at h
                  rw [kindOkPieces_append_sep]
                  exact ⟨kindOkPieces_replace kinds pre _ rep hnl hrep h.1, h.2⟩
              · rw [if_neg h3]
                have hgoal : pre ++ ((c :: rest).take kw.length ++ w ++ cap ++
                      redactScanF kw redact rep fuel (rest2.drop cap.length)) =
                    (pre ++ ((c :: rest).take kw.length ++ (w ++ cap))) ++
                      redactScanF kw redact rep fuel (rest2.drop cap.length) := by
                  simp [List.append_assoc]
                rw [hgoal]
                exact ih _ _ h
          · rw [if_neg h1]
            have hpre : pre ++ c :: rest = (pre ++ [c]) ++ rest := by simp
            rw [hpre] at h
            have hgoal : pre ++ c :: redactScanF kw redact rep fuel rest =
                (pre ++ [c]) ++ redactScanF kw redact rep fuel rest := by simp
            rw [hgoal]
            exact ih rest (pre ++ [c]) h

theorem suppressSecrets_kindOk (kinds : List String) (cs : List Char)
    (h : kindOkPieces kinds cs) : kindOkPieces kinds (suppressSecrets cs) := by
  unfold suppressSecrets
  have h1 : kindOkPieces kinds
      (redactScan "data:".data dataRedactCond "data: [REDACTED]".data cs) :=
    redactScanF_kindOk kinds _ _ _ (by decide) (by decide) cs.length cs [] h
  exact redactScanF_kindOk kinds _ _ _ (by decide) (by decide) _ _ [] h1

theorem kindOkText_iff_pieces (kinds : List String) (s : String) :
    kindOkText kinds s ↔ kindOkPieces kinds s.data := by
  constructor
  · intro h x hx m hm
    refine h ⟨x⟩ (List.mem_map_of_mem _ hx) ⟨m⟩ ?_
    simp only [firstParenMatch]
    rw [hm]
    rfl
  · intro h l hl c hc
    simp only [linesOf, splitStr, List.mem_map] at hl
    obtain ⟨p, hp, rfl⟩ := hl
    simp only [firstParenMatch] at hc
    obtain ⟨m, hm, rfl⟩ := Option.map_eq_some'.mp hc
    exact h p hp m hm

theorem kindOkText_unlines (kinds : List String) (out : List String)
    (hnl : ∀ l ∈ out, '\n' ∉ l.data)
    (hok : ∀ l ∈ out, ∀ c, firstParenMatch l = some c →
      (kinds.any (fun sk => lowerStr (filterKindOf c) == lowerStr sk)) = false) :
    kindOkText kinds (unlines out) := by
  by_cases hne : out = []
  · subst hne
    intro l hl c hc
    have he : linesOf (unlines ([] : List String)) = [⟨[]⟩] := rfl
    rw [he] at hl
    simp only [List.mem_singleton] at hl
    subst hl
    have : firstParenMatch ⟨[]⟩ = none := rfl
    rw [this] at hc
    cases hc
  · intro l hl
    rw [linesOf_unlines out hnl hne] at hl
    exact hok l hl

theorem suppressKindsFilter_kindOk (s : String) (kinds : List String) :
    kindOkText kinds (suppressKindsFilter s kinds) := by
  unfold suppressKindsFilter
  split
  · apply kindOkText_unlines
    · intro l hl
      exact linesOf_newline_free s l (suppressKindsScan_subset _ _ _ l hl)
    · intro l hl
      exact suppressKindsScan_kept (linesOf s) false kinds l hl
  · rename_i hkg
    have hnil : kinds = [] := by
      cases kinds with
      | nil => rfl
      | cons a t => simp at hkg
    subst hnil
    intro l hl c hc
    rfl

theorem suppressRegexFilter_kindOk (s : String) (compiled : Option (String → Bool))
    (kinds : List String) (h : kindOkText kinds s) :
    kindOkText kinds (suppressRegexFilter s compiled) := by
  unfold suppressRegexFilter
  cases compiled with
  | none => exact h
  | some test =>
      apply kindOkText_unlines
      · intro l hl
        exact linesOf_newline_free s l (List.mem_of_mem_filter hl)
      · intro l hl
        exact h l (List.mem_of_mem_filter hl)

theorem applySecretHandling_kindOk (s : String) (mode : String) (kinds : List String)
    (hmode : mode ≠ "decode") (h : kindOkText kinds s) :
    kindOkText kinds (applySecretHandling s mode) := by
  unfold applySecretHandling
  by_cases h1 : mode = "suppress"
  · rw [if_pos h1]
    exact (kindOkText_iff_pieces kinds _).mpr
      (suppressSecrets_kindOk kinds s.data ((kindOkText_iff_pieces kinds s).mp h))
  · rw [if_neg h1, if_neg hmode]
    exact h

theorem processDiff_kindOk (diff : String) (ignoreLabels : Bool) (kinds : List String)
    (regex : Option (String → Bool)) (mode : String) (hmode : mode ≠ "decode") :
    kindOkText kinds (processDiff diff ignoreLabels kinds regex mode) := by
  unfold processDiff
  apply applySecretHandling_kindOk _ _ _ hmode
  apply suppressRegexFilter_kindOk
  exact suppressKindsFilter_kindOk _ kinds

/-- C3, amended: for every raw diff text, every option set whose secret
handling is not `decode`, and every `suppressKinds` set, after the full
filter chain (metadata, kind, regex and secret handling) and
re-segmentation, no surviving group whose own header line carries a
well-formed parenthesized identifier — 3 slash-separated parts, or 4 parts
with a non-empty kind slot — has a kind that is case-insensitively in
`suppressKinds`.  (The claim fails for text in the fallback format, where
no line carries an identifier; for degenerate identifiers, where the
filter and the segmenter parse different kind fields; and under
`secretHandling='decode'`, where decoded base64 on a kept line can
synthesize a suppressed identifier after the kind filter has run.  The
`suppress` redactions are covered: a replacement containing no
parentheses cannot change the first complete parenthesized group of a
line.) -/
theorem c3_kind_suppression (diff : String) (ignoreLabels : Bool) (kinds : List String)
    (regex : Option (String → Bool)) (mode : String) (hmode : mode ≠ "decode") :
    ∀ r ∈ parseDiffByResources (processDiff diff ignoreLabels kinds regex mode),
      ∀ hd, r.lines.head? = some hd →
      ∀ c, firstParenMatch (jsTrim hd) = some c →
      ((splitStr c '/').length = 3 ∨
        ((splitStr c '/').length = 4 ∧ (splitStr c '/').getD 1 "" ≠ "")) →
      (kinds.any (fun sk => lowerStr r.kind == lowerStr sk)) = false := by
  intro r hr hd hhd c hc hparts
  have hok := processDiff_kindOk diff ignoreLabels kinds regex mode hmode
  obtain ⟨hsub, hns, hdet⟩ := parseDiffByResources_good _ r hr
  have hhdmem : hd ∈ linesOf (processDiff diff ignoreLabels kinds regex mode) :=
    hsub hd (head?_mem _ hd hhd)
  have hmhd : firstParenMatch hd = some c := by
    rw [← firstParenMatch_trim]
    exact hc
  have hany := hok hd hhdmem c hmhd
  have hkind : r.kind = (parseResourceId c).1 := (hdet hd hhd c hc).1
  rw [hkind, ← filterKind_eq_parseKind c hparts]
  exact hany

/-- Witness for C3 at a concrete text, option set and surviving group. -/
theorem c3_witness :
    (("show" : String) ≠ "decode") ∧
    ((["Service"].any (fun sk => lowerStr "Deployment" == lowerStr sk)) = false) := by
  refine ⟨by decide, ?_⟩
  exact c3_kind_suppression "spec.x  (v1/Deployment/ns1/my-app)" false ["Service"]
    none "show" (by decide)
    { category := "Workloads", path := "spec.x", kind := "Deployment", name := "my-app",
      ns := some "ns1", lines := ["spec.x  (v1/Deployment/ns1/my-app)"] }
    (by decide) "spec.x  (v1/Deployment/ns1/my-app)" (by decide)
    "v1/Deployment/ns1/my-app" (by decide) (Or.inr ⟨by decide, by decide⟩)

end HelmDiff
